import Mathlib

/-!
A verification development for the finalized chain-state commit and indexing
engine of the `zebra-btc` repository (`zebra-state/src/sled_state.rs`,
`zebra-state/src/service/pending_utxos.rs`) over a shallow embedding of the
relevant `zebra-chain` data model.

The persistent index store (sled) is modelled as ordered association lists
over byte-string keys: `insert` is a sorted single-key insert that replaces
an existing key, `get` is point lookup, and `iter().rev().next()` is the last
entry.  Key encodings come from the spec's description of the missing
`sled_format` module (fixed-width big-endian heights; fixed-width hash and
outpoint encodings, idealized here as injective encodings).  Machine
integers (`u32` heights) are `Nat` with explicit `% 2 ^ 32` where the source
truncates.  Panics (`expect`) are modelled as `none`; fallible operations
return `Option`.
-/

/-! ## Definitions: the shallow embedding of the data model and operations -/

/-- Byte strings used as sled keys.  Entries of real keys are bytes; the
idealized hash encodings below use one (unbounded) entry per 32-byte value,
which is harmless because only relative order and equality of keys matter. -/
abbrev Bytes := List Nat

/-- Strict lexicographic order on byte strings, matching the ordering sled
uses for its keys (slice comparison: pointwise, shorter prefix first). -/
def bytesLt : Bytes → Bytes → Bool
  | [], [] => false
  | [], _ :: _ => true
  | _ :: _, [] => false
  | a :: as, b :: bs => if a < b then true else if a = b then bytesLt as bs else false

/-- One sled tree: an association list from byte keys to values, kept in
strictly ascending key order by `insertT`. -/
abbrev TreeM (α : Type) := List (Bytes × α)

/-- Point lookup (`zs_get`). -/
def getT {α : Type} : TreeM α → Bytes → Option α
  | [], _ => none
  | (k', v) :: t, k => if k = k' then some v else getT t k

/-- Single-key insert (`zs_insert`): places the entry at its sorted position,
replacing an entry with an equal key. -/
def insertT {α : Type} (k : Bytes) (v : α) : TreeM α → TreeM α
  | [] => [(k, v)]
  | (k', v') :: t =>
    if bytesLt k k' then (k, v) :: (k', v') :: t
    else if k = k' then (k, v) :: t
    else (k', v') :: insertT k v t

/-- The last entry in ascending key order (`iter().rev().next()`). -/
def lastT {α : Type} (l : TreeM α) : Option (Bytes × α) := l.getLast?

/-- A tree is sorted when its keys are strictly ascending. -/
def TSorted {α : Type} (l : TreeM α) : Prop :=
  List.Pairwise (fun a b => bytesLt a.1 b.1 = true) l

/-- Modelled from the spec: 4-byte big-endian key encoding of a `u32` height
(sled_format is missing from src/).  For inputs below `2 ^ 32` this is the
exact big-endian byte decomposition; larger inputs wrap as the `u32` cast
would. -/
def encHeight (h : Nat) : Bytes :=
  [h / 16777216 % 256, h / 65536 % 256, h / 256 % 256, h % 256]

/-- Big-endian byte decoding of a height key (`Height::from_ivec`). -/
def decodeHeight (bs : Bytes) : Nat := bs.foldl (fun acc b => acc * 256 + b) 0

/-- Modelled from the spec: the 32-byte block-hash key encoding, idealized as
a one-entry byte string holding the abstract hash value. -/
def encBHash (x : Nat) : Bytes := [x]

/-- Modelled from the spec: the 32-byte transaction-hash key encoding,
idealized like `encBHash`. -/
def encTHash (x : Nat) : Bytes := [x]

/-- Modelled from the spec: the 36-byte outpoint key encoding
(transaction hash followed by the output index). -/
def encOutPointKey (h i : Nat) : Bytes := [h, i]

/-- Modelled from the spec: the fixed-size nullifier key encoding, idealized
like `encBHash`. -/
def encNullifier (n : Nat) : Bytes := [n]

/-- Injective encoding of a byte list into a natural, standing in for a
serialized variable-length field. -/
def encL : List Nat → Nat
  | [] => 0
  | a :: t => Nat.pair a (encL t) + 1

/-- Injective encoding of an `i64`/`i32` field. -/
def encI : Int → Nat
  | Int.ofNat n => 2 * n
  | Int.negSucc n => 2 * n + 1

/-- Model of `block::Header` (`zebra-chain/src/block/header.rs`).  The six consensus
fields are serialized (and hashed); `reported_height` models the
`Cached<usize>` BIP-34 height cache, which is not serialized.  The cached
hash field is elided (see above).  `time` is the `DateTime<Utc>` timestamp,
modelled as an integer. -/
structure Header where
  version : Nat
  previous_block_hash : Nat
  merkle_root : Nat
  time : Int
  difficulty_threshold : Nat
  nonce : Nat
  reported_height : Option Nat
deriving DecidableEq

/-- Model of `transparent::OutPoint`. -/
structure OutPoint where
  hash : Nat
  index : Nat
deriving DecidableEq

/-- Model of `transparent::Output`: value plus lock script. -/
structure Output where
  value : Nat
  lock_script : List Nat
deriving DecidableEq

/-- Model of `transparent::Input`.  The coinbase `height` field is an
`Option<Cached<block::Height>>`: both layers become `Option`. -/
inductive Input where
  | prevOut (outpoint : OutPoint) (unlock_script : List Nat) (sequence : Nat)
  | coinbase (height : Option (Option Nat)) (data : List Nat) (sequence : Nat)
deriving DecidableEq

/-- Model of `Transaction` (`zebra-chain/src/transaction.rs`).  The cached hash field
is elided.  `sproutNullifiers`/`saplingNullifiers` are modelled from the
spec: `sled_state.rs` calls `transaction.sprout_nullifiers()` and
`transaction.sapling_nullifiers()`, but those accessors (and the shielded
data they read) are not under `src/`; per the spec each transaction carries
the nullifiers of its shielded spends, one opaque fixed-size value per spend,
in two pools. -/
structure Transaction where
  version : Int
  inputs : List Input
  outputs : List Output
  locktime : Nat
  sproutNullifiers : List Nat
  saplingNullifiers : List Nat
deriving DecidableEq

/-- A block: header plus transactions. -/
structure Block where
  header : Header
  transactions : List Transaction
deriving DecidableEq

/-- Idealized SHA256d of the 80-byte header serialization
(`Hash::from(&Header)`); injective on the six serialized fields and never
equal to the all-zero genesis sentinel (modelled as `0`). -/
def headerHash (h : Header) : Nat :=
  Nat.pair h.version (Nat.pair h.previous_block_hash (Nat.pair h.merkle_root
    (Nat.pair (encI h.time) (Nat.pair h.difficulty_threshold h.nonce)))) + 1

/-- Model of `Block::hash`: the hash of the header. -/
def blockHash (b : Block) : Nat := headerHash b.header

def encOutput (o : Output) : Nat := Nat.pair o.value (encL o.lock_script)

def encCachedHeight : Option (Option Nat) → Nat
  | none => 0
  | some none => 1
  | some (some n) => n + 2

def encInput : Input → Nat
  | Input.prevOut op us seq =>
      Nat.pair 0 (Nat.pair op.hash (Nat.pair op.index (Nat.pair (encL us) seq)))
  | Input.coinbase ht d seq =>
      Nat.pair 1 (Nat.pair (encCachedHeight ht) (Nat.pair (encL d) seq))

/-- Idealized SHA256d of the transaction serialization
(`Transaction::hash`); injective on the serialized fields. -/
def txHash (t : Transaction) : Nat :=
  Nat.pair (encI t.version) (Nat.pair (encL (t.inputs.map encInput))
    (Nat.pair (encL (t.outputs.map encOutput)) (Nat.pair t.locktime
      (Nat.pair (encL t.sproutNullifiers) (encL t.saplingNullifiers)))))

/-- Model of `GENESIS_PREVIOUS_BLOCK_HASH`: the all-zero parent hash of the genesis
block, modelled as `0`. -/
def GENESIS_PREVIOUS_BLOCK_HASH : Nat := 0

/-- Model of `Block::coinbase_height`: the header's cached BIP-34 height if present
(cast `usize as u32`), otherwise the cached height of the first transaction's
first input when that input is a coinbase (`Height` is a `u32`).  The
`header.reported_height()` accessor is missing from `src/`; it is modelled
as reading the `Cached<usize>` field. -/
def Block.coinbase_height (b : Block) : Option Nat :=
  match b.header.reported_height with
  | some height => some (height % 2 ^ 32)
  | none =>
    (b.transactions.head?.bind fun tx => tx.inputs.head?).bind fun input =>
      match input with
      | Input.coinbase height _ _ =>
        match height with
        | some cached_height => cached_height
        | none => none
      | _ => none

/-- A queued block: the block plus its completion channel.  The oneshot
response sender is modelled by an opaque identifier; the drain loop's sends
are modelled by the ordered list of committed hashes that
`queue_and_commit_finalized_blocks` returns. -/
structure QueuedBlock where
  block : Block
  rspId : Nat
deriving DecidableEq

/-- Model of `FinalizedState`: the in-memory queue plus the seven sled trees. -/
structure FinalizedState where
  queued_by_prev_hash : List (Nat × QueuedBlock)
  hash_by_height : TreeM Nat
  height_by_hash : TreeM Nat
  block_by_height : TreeM Block
  tx_by_hash : TreeM Transaction
  utxo_by_outpoint : TreeM Output
  sprout_nullifiers : TreeM Unit
  sapling_nullifiers : TreeM Unit
deriving DecidableEq

/-- A freshly opened (empty) database. -/
def emptyState : FinalizedState := ⟨[], [], [], [], [], [], [], []⟩

/-- Model of `HashMap::get` on the queued-block map. -/
def alLookup : List (Nat × QueuedBlock) → Nat → Option QueuedBlock
  | [], _ => none
  | (k', v) :: t, k => if k = k' then some v else alLookup t k

/-- Model of `HashMap::insert` on the queued-block map: replaces the entry with the
same key, otherwise adds one. -/
def alInsert : List (Nat × QueuedBlock) → Nat → QueuedBlock → List (Nat × QueuedBlock)
  | [], k, v => [(k, v)]
  | (k', v') :: t, k, v => if k = k' then (k, v) :: t else (k', v') :: alInsert t k v

/-- Model of `HashMap::remove` on the queued-block map. -/
def alRemove (l : List (Nat × QueuedBlock)) (k : Nat) : List (Nat × QueuedBlock) :=
  l.filter fun e => e.1 != k

/-- The per-transaction indexing of `commit_finalized_direct`'s loop body:
insert the transaction under its hash, each output under its outpoint, and
each nullifier into its pool's set. -/
def commitTx (s : FinalizedState) (t : Transaction) : FinalizedState :=
  let transaction_hash := txHash t
  let txTree := insertT (encTHash transaction_hash) t s.tx_by_hash
  let utxoTree := t.outputs.enum.foldl
    (fun tr io => insertT (encOutPointKey transaction_hash io.1) io.2 tr)
    s.utxo_by_outpoint
  let sproutTree := t.sproutNullifiers.foldl
    (fun tr n => insertT (encNullifier n) () tr) s.sprout_nullifiers
  let saplingTree := t.saplingNullifiers.foldl
    (fun tr n => insertT (encNullifier n) () tr) s.sapling_nullifiers
  { s with tx_by_hash := txTree, utxo_by_outpoint := utxoTree,
           sprout_nullifiers := sproutTree, sapling_nullifiers := saplingTree }

/-- Model of `FinalizedState::commit_finalized_direct`.  `none` models the
`expect("finalized blocks are valid and have a coinbase height")` panic;
on success the result is the committed block's hash and the updated state
(sled write errors do not arise in the model). -/
def commit_finalized_direct (s : FinalizedState) (block : Block) :
    Option (Nat × FinalizedState) :=
  match Block.coinbase_height block with
  | none => none
  | some height =>
    let hash := blockHash block
    let s1 := { s with
      hash_by_height := insertT (encHeight height) hash s.hash_by_height,
      height_by_hash := insertT (encBHash hash) height s.height_by_hash,
      block_by_height := insertT (encHeight height) block s.block_by_height }
    some (hash, block.transactions.foldl commitTx s1)

/-- Model of `FinalizedState::tip`: the last entry of `hash_by_height` in ascending
key order, decoded. -/
def tip (s : FinalizedState) : Option (Nat × Nat) :=
  match lastT s.hash_by_height with
  | some (height_bytes, hash) => some (decodeHeight height_bytes, hash)
  | none => none

/-- Model of `FinalizedState::finalized_tip_hash`: the tip hash, or the genesis
previous-block hash for an empty state. -/
def finalized_tip_hash (s : FinalizedState) : Nat :=
  match tip s with
  | some (_, hash) => hash
  | none => GENESIS_PREVIOUS_BLOCK_HASH

/-- Model of `FinalizedState::finalized_tip_height`. -/
def finalized_tip_height (s : FinalizedState) : Option Nat :=
  (tip s).map Prod.fst

/-- Model of `FinalizedState::depth`.  The outer `Option` models the
`expect("tip must exist")` panic; `some none` is `Ok(None)` (hash not
committed); the subtraction is the `u32` subtraction
`tip_height.0 - height.0`, written in its wrapping form. -/
def depth (s : FinalizedState) (hash : Nat) : Option (Option Nat) :=
  match getT s.height_by_hash (encBHash hash) with
  | none => some none
  | some height =>
    match tip s with
    | none => none
    | some (tip_height, _) => some (some ((tip_height + 2 ^ 32 - height) % 2 ^ 32))

/-- Model of `FinalizedState::utxo`. -/
def utxo (s : FinalizedState) (outpoint : OutPoint) : Option Output :=
  getT s.utxo_by_outpoint (encOutPointKey outpoint.hash outpoint.index)

/-- The drain loop of `queue_and_commit_finalized_blocks`: while a queued
entry's key equals the current tip hash, remove it and commit it.  `fuel`
bounds the iteration count structurally; every iteration removes one queue
entry, so `queued_by_prev_hash.length` fuel always suffices and the
fuel-exhausted lookup-hit branch is unreachable.  `none` models the
`expect("valid blocks must have a height")` panic; the returned list is the
ordered sequence of committed hashes (the values sent on the completion
channels, all `Ok`). -/
def drainGo : Nat → FinalizedState → Option (FinalizedState × List Nat)
  | 0, s =>
    match alLookup s.queued_by_prev_hash (finalized_tip_hash s) with
    | none => some (s, [])
    | some _ => none
  | fuel + 1, s =>
    let key := finalized_tip_hash s
    match alLookup s.queued_by_prev_hash key with
    | none => some (s, [])
    | some queued_block =>
      let s' := { s with queued_by_prev_hash := alRemove s.queued_by_prev_hash key }
      match Block.coinbase_height queued_block.block with
      | none => none
      | some _ =>
        match commit_finalized_direct s' queued_block.block with
        | none => none
        | some (hash, s'') =>
          (drainGo fuel s'').map fun p => (p.1, hash :: p.2)

/-- Model of `FinalizedState::queue_and_commit_finalized_blocks`: insert the block
under its declared parent hash, then drain. -/
def queue_and_commit_finalized_blocks (s : FinalizedState) (queued_block : QueuedBlock) :
    Option (FinalizedState × List Nat) :=
  let q := alInsert s.queued_by_prev_hash
    queued_block.block.header.previous_block_hash queued_block
  drainGo q.length { s with queued_by_prev_hash := q }

/-- A `tokio::sync::broadcast::Sender<Utxo>`: an opaque channel identity plus
its live receiver count.  `send` fails (and the failure is ignored) exactly
when the receiver count is zero. -/
structure BSender where
  senderId : Nat
  receiver_count : Nat
deriving DecidableEq

/-- Model of `PendingUtxos`: the outpoint-to-waiters map. -/
abbrev PendingUtxos := List (OutPoint × BSender)

/-- Model of `HashMap::get` on the pending-UTXO map. -/
def puLookup : PendingUtxos → OutPoint → Option BSender
  | [], _ => none
  | (k', v) :: t, k => if k = k' then some v else puLookup t k

/-- Model of `HashMap::remove` on the pending-UTXO map. -/
def puRemove (m : PendingUtxos) (o : OutPoint) : PendingUtxos :=
  m.filter fun e => e.1 != o

/-- Model of `PendingUtxos::respond`: remove the waiter entry for the outpoint, if
any, and send the utxo to its subscribers (the send result is ignored).  The
`Utxo` payload type is not under `src/` and is modelled from the spec as the
created output; the second component records the attempted send. -/
def respond (m : PendingUtxos) (outpoint : OutPoint) (u : Output) :
    PendingUtxos × Option (BSender × Output) :=
  match puLookup m outpoint with
  | some sender => (puRemove m outpoint, some (sender, u))
  | none => (m, none)

/-- Keys of `hash_by_height` are well formed: each is the big-endian encoding
of a `u32` height. -/
def WellKeyed (l : TreeM Nat) : Prop :=
  ∀ e ∈ l, ∃ h, h < 2 ^ 32 ∧ e.1 = encHeight h

/-- The utxo-index consistency invariant: every entry keyed by a transaction
hash and index holds that transaction's output at that index. -/
def UtxoOk (s : FinalizedState) : Prop :=
  ∀ (t : Transaction) (i : Nat) (v : Output),
    getT s.utxo_by_outpoint (encOutPointKey (txHash t) i) = some v →
      t.outputs[i]? = some v

/-- A sequence of direct commits, as used by the round-trip claims; `none`
when some block lacks a coinbase height. -/
def commitList (s : FinalizedState) : List Block → Option FinalizedState
  | [] => some s
  | b :: bs =>
    match commit_finalized_direct s b with
    | none => none
    | some (_, s') => commitList s' bs

/-- States reachable from a fresh database by successful
`commit_finalized_direct` calls (with `u32` coinbase heights, as in the
source's `Height` type), with no chain-consistency requirement. -/
inductive ReachableAny : FinalizedState → Prop
  | init : ReachableAny emptyState
  | step {s : FinalizedState} {b : Block} {ch x : Nat} {s' : FinalizedState} :
      ReachableAny s → Block.coinbase_height b = some ch → ch < 2 ^ 32 →
      commit_finalized_direct s b = some (x, s') → ReachableAny s'

/-- Every `height_by_hash` entry records a `u32` height that also has a
`hash_by_height` entry. -/
def CoverInv (s : FinalizedState) : Prop :=
  ∀ x h, getT s.height_by_hash (encBHash x) = some h →
    h < 2 ^ 32 ∧ ∃ y, getT s.hash_by_height (encHeight h) = some y

/-- The invariants of arbitrary successful-commit runs. -/
def AnyInv (s : FinalizedState) : Prop :=
  TSorted s.hash_by_height ∧ WellKeyed s.hash_by_height ∧ CoverInv s ∧ UtxoOk s

/-- The height the drain loop's documented precondition assigns to the next
block: tip height + 1, or 0 for an empty store. -/
def nextHeight (s : FinalizedState) : Nat :=
  match finalized_tip_height s with
  | none => 0
  | some t => t + 1

/-- The Commit Pipeline precondition from the spec: the block chains from the
current tip and declares the next height (a `u32`). -/
def WfStep (s : FinalizedState) (b : Block) : Prop :=
  b.header.previous_block_hash = finalized_tip_hash s ∧
  Block.coinbase_height b = some (nextHeight s) ∧ nextHeight s < 2 ^ 32

/-- States reachable from a fresh database by successful commits that each
satisfy the documented precondition. -/
inductive ReachableWf : FinalizedState → Prop
  | init : ReachableWf emptyState
  | step {s : FinalizedState} {b : Block} {x : Nat} {s' : FinalizedState} :
      ReachableWf s → WfStep s b → commit_finalized_direct s b = some (x, s') →
      ReachableWf s'

/-- The cross-index chain invariant: the committed heights are exactly
`0, …, N-1`; the height and hash indices are mutually inverse; each stored
block hashes to its indexed hash, records its height, and links to its
parent's hash (the genesis sentinel at height 0); indexed hashes are
pairwise distinct. -/
structure InvN (s : FinalizedState) (N : Nat) : Prop where
  srtH : TSorted s.hash_by_height
  srtHH : TSorted s.height_by_hash
  bound : N ≤ 2 ^ 32
  dom : ∀ h, h < N → ∃ x, getT s.hash_by_height (encHeight h) = some x
  keys : ∀ e ∈ s.hash_by_height, ∃ h, h < N ∧ e.1 = encHeight h
  link : ∀ h x, h < N → getT s.hash_by_height (encHeight h) = some x →
    getT s.height_by_hash (encBHash x) = some h ∧
    ∃ b, getT s.block_by_height (encHeight h) = some b ∧ blockHash b = x ∧
      Block.coinbase_height b = some h ∧
      (h = 0 → b.header.previous_block_hash = GENESIS_PREVIOUS_BLOCK_HASH) ∧
      (∀ hp, h = hp + 1 → ∃ xp, getT s.hash_by_height (encHeight hp) = some xp ∧
        b.header.previous_block_hash = xp)
  inj : ∀ h h' x, h < N → h' < N → getT s.hash_by_height (encHeight h) = some x →
    getT s.hash_by_height (encHeight h') = some x → h = h'
  rev : ∀ e ∈ s.height_by_hash, ∃ x h, e = (encBHash x, h) ∧ h < N ∧
    getT s.hash_by_height (encHeight h) = some x

/-- A genesis-shaped block: all-zero serialized header fields, parent the
genesis sentinel, cached BIP-34 height 0, no transactions. -/
def exBlockG : Block := ⟨⟨0, 0, 0, 0, 0, 0, some 0⟩, []⟩

/-- The state after committing `exBlockG` to a fresh database. -/
def exStateG : FinalizedState :=
  match commit_finalized_direct emptyState exBlockG with
  | some p => p.2
  | none => emptyState

/-- A child of `exBlockG` at height 1. -/
def exBlockC1 : Block := ⟨⟨0, blockHash exBlockG, 0, 0, 0, 0, some 1⟩, []⟩

/-- Another child of `exBlockG` at height 1 (distinct nonce). -/
def exBlockC1b : Block := ⟨⟨0, blockHash exBlockG, 0, 0, 0, 1, some 1⟩, []⟩

/-- The state after committing `exBlockG` then `exBlockC1`. -/
def exStateGC : FinalizedState :=
  match commit_finalized_direct exStateG exBlockC1 with
  | some p => p.2
  | none => emptyState

/-- A block that chains from the tip of `exStateGC` but declares coinbase
height 0 instead of the next height 2. -/
def exBlockLow : Block := ⟨⟨0, blockHash exBlockC1, 0, 0, 0, 0, some 0⟩, []⟩

/-- A child of `exBlockLow`. -/
def exBlockLowChild : Block := ⟨⟨0, blockHash exBlockLow, 0, 0, 0, 0, some 1⟩, []⟩

/-- The state after enqueueing `exBlockLowChild` on `exStateGC` (its parent
is absent, so it is only buffered). -/
def exStateQ1 : FinalizedState :=
  match queue_and_commit_finalized_blocks exStateGC ⟨exBlockLowChild, 20⟩ with
  | some p => p.1
  | none => emptyState

/-- The state after directly committing `exBlockLow` (coinbase height 0) on
the two-block chain `exStateGC`. -/
def exStateLow : FinalizedState :=
  match commit_finalized_direct exStateGC exBlockLow with
  | some p => p.2
  | none => emptyState

/-- A transaction carrying the sprout nullifier 7. -/
def exTxN : Transaction := ⟨0, [], [], 0, [7], []⟩

/-- A block at height 0 whose transaction spends sprout nullifier 7. -/
def exBlockN1 : Block := ⟨⟨0, 0, 0, 0, 0, 0, some 0⟩, [exTxN]⟩

/-- A child block at height 1 whose transaction spends the same sprout
nullifier 7. -/
def exBlockN2 : Block := ⟨⟨0, blockHash exBlockN1, 0, 0, 0, 0, some 1⟩, [exTxN]⟩

/-- The state after committing `exBlockN1`. -/
def exStateN1 : FinalizedState :=
  match commit_finalized_direct emptyState exBlockN1 with
  | some p => p.2
  | none => emptyState

/-- The state after committing `exBlockN1` then `exBlockN2` (the
double-spending block). -/
def exStateN2 : FinalizedState :=
  match commit_finalized_direct exStateN1 exBlockN2 with
  | some p => p.2
  | none => emptyState

/-- A block declaring coinbase height 5 over the genesis sentinel parent. -/
def exBlock5 : Block := ⟨⟨0, 0, 0, 0, 0, 0, some 5⟩, []⟩

/-- The state after committing `exBlock5` directly to a fresh database. -/
def exState5 : FinalizedState :=
  match commit_finalized_direct emptyState exBlock5 with
  | some p => p.2
  | none => emptyState

/-- The state after enqueueing `exBlock5` on a fresh database (the drain
loop immediately commits it). -/
def exQState5 : FinalizedState :=
  match queue_and_commit_finalized_blocks emptyState ⟨exBlock5, 0⟩ with
  | some p => p.1
  | none => emptyState

/-- A block with no recoverable height: empty header cache and no
transactions. -/
def exBlockNoH : Block := ⟨⟨0, 0, 0, 0, 0, 0, none⟩, []⟩

/-- A transparent output. -/
def exOut : Output := ⟨50, [1]⟩

/-- A transaction creating `exOut` at index 0. -/
def exTxOut : Transaction := ⟨0, [], [exOut], 0, [], []⟩

/-- A block at height 0 containing `exTxOut`. -/
def exBlockU : Block := ⟨⟨0, 0, 0, 0, 0, 0, some 0⟩, [exTxOut]⟩

/-- The state after committing `exBlockU`. -/
def exStateU : FinalizedState :=
  match commit_finalized_direct emptyState exBlockU with
  | some p => p.2
  | none => emptyState

/-- A child block of `exBlockU` with no transactions. -/
def exBlockU2 : Block := ⟨⟨0, blockHash exBlockU, 0, 0, 0, 0, some 1⟩, []⟩

/-- The state after further committing `exBlockU2`. -/
def exStateU2 : FinalizedState :=
  match commitList exStateU [exBlockU2] with
  | some s => s
  | none => emptyState

/-- An outpoint used by the notifier examples. -/
def exOutPoint0 : OutPoint := ⟨0, 0⟩

/-- A waiter map whose only entry has no live receivers. -/
def exPU0 : PendingUtxos := [(exOutPoint0, ⟨0, 0⟩)]

/-- A waiter map whose only entry has one live receiver. -/
def exPU1 : PendingUtxos := [(exOutPoint0, ⟨3, 1⟩)]

/-- An output delivered to the notifier. -/
def exOut2 : Output := ⟨9, []⟩

/-! ## Theorems -/

theorem bytesLt_irrefl (a : Bytes) : bytesLt a a = false := by
  induction a with
  | nil => rfl
  | cons x xs ih => simp [bytesLt, ih]

theorem bytesLt_asymm {a b : Bytes} (h : bytesLt a b = true) : bytesLt b a = false := by
  induction a generalizing b with
  | nil =>
    cases b with
    | nil => simp [bytesLt] at h
    | cons y ys => simp [bytesLt]
  | cons x xs ih =>
    cases b with
    | nil => simp [bytesLt] at h
    | cons y ys =>
      simp only [bytesLt] at h ⊢
      by_cases hxy : x < y
      · have : ¬ y < x := by omega
        have : ¬ y = x := by omega
        simp [*]
      · by_cases hyx : x = y
        · subst hyx
          simp only [if_neg hxy, if_pos rfl] at h
          simp [lt_irrefl, ih h]
        · simp [hxy, hyx] at h

theorem bytesLt_trans {a b c : Bytes} (hab : bytesLt a b = true)
    (hbc : bytesLt b c = true) : bytesLt a c = true := by
  induction a generalizing b c with
  | nil =>
    cases b with
    | nil => simp [bytesLt] at hab
    | cons y ys =>
      cases c with
      | nil => simp [bytesLt] at hbc
      | cons z zs => simp [bytesLt]
  | cons x xs ih =>
    cases b with
    | nil => simp [bytesLt] at hab
    | cons y ys =>
      cases c with
      | nil => simp [bytesLt] at hbc
      | cons z zs =>
        simp only [bytesLt] at hab hbc ⊢
        by_cases hxy : x < y
        · by_cases hyz : y < z
          · have : x < z := by omega
            simp [this]
          · by_cases hyz' : y = z
            · subst hyz'
              simp [hxy]
            · simp [hyz, hyz'] at hbc
        · by_cases hxy' : x = y
          · subst hxy'
            simp only [if_neg hxy, if_pos rfl] at hab
            by_cases hyz : x < z
            · simp [hyz]
            · by_cases hyz' : x = z
              · subst hyz'
                simp only [if_neg hyz, if_pos rfl] at hbc ⊢
                exact ih hab hbc
              · simp [hyz, hyz'] at hbc
          · simp [hxy, hxy'] at hab

theorem bytesLt_total {a b : Bytes} (h : a ≠ b) :
    bytesLt a b = true ∨ bytesLt b a = true := by
  induction a generalizing b with
  | nil =>
    cases b with
    | nil => exact absurd rfl h
    | cons y ys => left; rfl
  | cons x xs ih =>
    cases b with
    | nil => right; rfl
    | cons y ys =>
      by_cases hxy : x = y
      · subst hxy
        have hne : xs ≠ ys := by
          intro hc; exact h (by rw [hc])
        rcases ih hne with h1 | h1
        · left; simp [bytesLt, h1]
        · right; simp [bytesLt, h1]
      · by_cases hlt : x < y
        · left; simp [bytesLt, hlt]
        · right
          have : y < x := by omega
          simp [bytesLt, this]

theorem tsorted_nil {α : Type} : TSorted ([] : TreeM α) := List.Pairwise.nil

theorem getT_insertT_self {α : Type} (l : TreeM α) (k : Bytes) (v : α) :
    getT (insertT k v l) k = some v := by
  induction l with
  | nil => simp [insertT, getT]
  | cons e t ih =>
    obtain ⟨k', v'⟩ := e
    by_cases h1 : bytesLt k k'
    · simp [insertT, h1, getT]
    · by_cases h2 : k = k'
      · subst h2
        simp [insertT, h1, getT]
      · simp [insertT, h1, h2, getT, ih]

theorem getT_insertT_ne {α : Type} (l : TreeM α) {k k' : Bytes} (v : α)
    (h : k' ≠ k) : getT (insertT k v l) k' = getT l k' := by
  induction l with
  | nil => simp [insertT, getT, h]
  | cons e t ih =>
    obtain ⟨k0, v0⟩ := e
    by_cases h1 : bytesLt k k0
    · simp [insertT, h1, getT, h]
    · by_cases h2 : k = k0
      · subst h2
        simp [insertT, h1, getT, h]
      · by_cases h3 : k' = k0
        · simp [insertT, h1, h2, getT, h3]
        · simp [insertT, h1, h2, getT, h3, ih]

theorem mem_insertT {α : Type} {l : TreeM α} {k : Bytes} {v : α}
    {e : Bytes × α} (h : e ∈ insertT k v l) : e = (k, v) ∨ e ∈ l := by
  induction l with
  | nil =>
    left
    simpa [insertT] using h
  | cons e0 t ih =>
    obtain ⟨k0, v0⟩ := e0
    by_cases h1 : bytesLt k k0
    · rw [insertT, if_pos h1] at h
      rcases List.mem_cons.mp h with h' | h'
      · left; exact h'
      · right; exact h'
    · by_cases h2 : k = k0
      · rw [insertT, if_neg h1, if_pos h2] at h
        rcases List.mem_cons.mp h with h' | h'
        · left; exact h'
        · right; exact List.mem_cons_of_mem _ h'
      · rw [insertT, if_neg h1, if_neg h2] at h
        rcases List.mem_cons.mp h with h' | h'
        · right; rw [h']; exact List.mem_cons_self _ _
        · rcases ih h' with h'' | h''
          · left; exact h''
          · right; exact List.mem_cons_of_mem _ h''

theorem tsorted_insertT {α : Type} {l : TreeM α} (hs : TSorted l)
    (k : Bytes) (v : α) : TSorted (insertT k v l) := by
  induction l with
  | nil => simp [insertT, TSorted]
  | cons e t ih =>
    obtain ⟨k0, v0⟩ := e
    rw [TSorted, List.pairwise_cons] at hs
    obtain ⟨hall, htail⟩ := hs
    by_cases h1 : bytesLt k k0
    · rw [insertT, if_pos h1]
      refine List.Pairwise.cons ?_ (List.Pairwise.cons hall htail)
      intro e' he'
      rcases List.mem_cons.mp he' with rfl | he'
      · exact h1
      · exact bytesLt_trans h1 (hall e' he')
    · by_cases h2 : k = k0
      · subst h2
        rw [insertT, if_neg h1, if_pos rfl]
        exact List.Pairwise.cons hall htail
      · rw [insertT, if_neg h1, if_neg h2]
        refine List.Pairwise.cons ?_ (ih htail)
        intro e' he'
        rcases mem_insertT he' with rfl | he'
        · rcases bytesLt_total h2 with h | h
          · exact absurd h h1
          · exact h
        · exact hall e' he'

theorem getT_mem {α : Type} {l : TreeM α} {k : Bytes} {v : α}
    (h : getT l k = some v) : (k, v) ∈ l := by
  induction l with
  | nil => simp [getT] at h
  | cons e t ih =>
    obtain ⟨k0, v0⟩ := e
    by_cases h1 : k = k0
    · subst h1
      rw [getT, if_pos rfl] at h
      injection h with h
      rw [← h]
      exact List.mem_cons_self _ _
    · rw [getT, if_neg h1] at h
      exact List.mem_cons_of_mem _ (ih h)

theorem mem_getT {α : Type} {l : TreeM α} (hs : TSorted l) {k : Bytes} {v : α}
    (h : (k, v) ∈ l) : getT l k = some v := by
  induction l with
  | nil => simp at h
  | cons e t ih =>
    obtain ⟨k0, v0⟩ := e
    rw [TSorted, List.pairwise_cons] at hs
    obtain ⟨hall, htail⟩ := hs
    rcases List.mem_cons.mp h with h' | h'
    · rw [Prod.mk.injEq] at h'
      obtain ⟨rfl, rfl⟩ := h'
      simp [getT]
    · have hk : k ≠ k0 := by
        intro hc
        subst hc
        have := hall _ h'
        simp [bytesLt_irrefl] at this
      simp [getT, hk, ih htail h']

theorem getT_none_iff {α : Type} (l : TreeM α) (k : Bytes) :
    getT l k = none ↔ ∀ e ∈ l, e.1 ≠ k := by
  induction l with
  | nil => simp [getT]
  | cons e t ih =>
    obtain ⟨k0, v0⟩ := e
    by_cases h1 : k = k0
    · subst h1
      simp [getT]
    · simp only [getT, if_neg h1, ih, List.mem_cons]
      constructor
      · intro hall e' he'
        rcases he' with rfl | he'
        · simp; exact fun hc => h1 hc.symm
        · exact hall e' he'
      · intro hall e' he'
        exact hall e' (Or.inr he')

theorem insertT_append {α : Type} {l : TreeM α} {k : Bytes} (v : α)
    (h : ∀ e ∈ l, bytesLt e.1 k = true) : insertT k v l = l ++ [(k, v)] := by
  induction l with
  | nil => rfl
  | cons e t ih =>
    obtain ⟨k0, v0⟩ := e
    have hk0 : bytesLt k0 k = true := h (k0, v0) (List.mem_cons_self _ _)
    have h1 : ¬ bytesLt k k0 = true := by
      intro hc
      have := bytesLt_asymm hc
      rw [this] at hk0
      exact Bool.false_ne_true hk0
    have h2 : k ≠ k0 := by
      intro hc
      subst hc
      rw [bytesLt_irrefl] at hk0
      exact Bool.false_ne_true hk0
    rw [insertT, if_neg h1, if_neg h2, ih (fun e he => h e (List.mem_cons_of_mem _ he))]
    rfl

theorem lastT_mem {α : Type} {l : TreeM α} {e : Bytes × α}
    (h : lastT l = some e) : e ∈ l := by
  induction l with
  | nil => simp [lastT] at h
  | cons e0 t ih =>
    cases t with
    | nil =>
      have h' : some e0 = some e := h
      injection h' with h'
      rw [← h']
      exact List.mem_cons_self _ _
    | cons e1 t1 =>
      rw [lastT, List.getLast?_cons_cons] at h
      exact List.mem_cons_of_mem _ (ih h)

theorem lastT_max {α : Type} {l : TreeM α} (hs : TSorted l) {e : Bytes × α}
    (hl : lastT l = some e) {e' : Bytes × α} (he' : e' ∈ l) :
    e' = e ∨ bytesLt e'.1 e.1 = true := by
  induction l with
  | nil => simp at he'
  | cons e0 t ih =>
    rw [TSorted, List.pairwise_cons] at hs
    obtain ⟨hall, htail⟩ := hs
    cases t with
    | nil =>
      have hl2 : some e0 = some e := hl
      injection hl2 with hl2
      rcases List.mem_cons.mp he' with h' | h'
      · left; rw [h', hl2]
      · simp at h'
    | cons e1 t1 =>
      have hl' : lastT (e1 :: t1) = some e := by
        rw [lastT, ← List.getLast?_cons_cons (a := e0)]
        exact hl
      rcases List.mem_cons.mp he' with h' | h'
      · right
        rw [h']
        exact hall e (lastT_mem hl')
      · exact ih htail hl' h'

theorem decodeHeight_encHeight {h : Nat} (hh : h < 2 ^ 32) :
    decodeHeight (encHeight h) = h := by
  simp only [encHeight, decodeHeight, List.foldl]
  omega

theorem encHeight_inj {a b : Nat} (ha : a < 2 ^ 32) (hb : b < 2 ^ 32)
    (h : encHeight a = encHeight b) : a = b := by
  have := congrArg decodeHeight h
  rwa [decodeHeight_encHeight ha, decodeHeight_encHeight hb] at this

theorem bytesLt_encHeight {a b : Nat} (hab : a < b) (hb : b < 2 ^ 32) :
    bytesLt (encHeight a) (encHeight b) = true := by
  simp only [encHeight, bytesLt]
  split_ifs <;> first | rfl | omega

theorem encL_inj {a b : List Nat} (h : encL a = encL b) : a = b := by
  induction a generalizing b with
  | nil =>
    cases b with
    | nil => rfl
    | cons y ys => simp [encL] at h
  | cons x xs ih =>
    cases b with
    | nil => simp [encL] at h
    | cons y ys =>
      simp only [encL, Nat.add_right_cancel_iff] at h
      have := Nat.pair_eq_pair.mp h
      rw [this.1, ih this.2]

theorem encI_inj {a b : Int} (h : encI a = encI b) : a = b := by
  cases a <;> cases b <;> simp [encI] at h ⊢ <;> omega

theorem headerHash_pos (h : Header) : 0 < headerHash h := Nat.succ_pos _

theorem headerHash_eq_prev {a b : Header} (h : headerHash a = headerHash b) :
    a.previous_block_hash = b.previous_block_hash := by
  simp only [headerHash, Nat.add_right_cancel_iff, Nat.pair_eq_pair] at h
  exact h.2.1

theorem encOutput_inj {a b : Output} (h : encOutput a = encOutput b) : a = b := by
  simp only [encOutput, Nat.pair_eq_pair] at h
  cases a; cases b
  simp only [Output.mk.injEq]
  exact ⟨h.1, encL_inj h.2⟩

/-- Equal transaction hashes force equal output lists — the only consequence
of hash injectivity the development needs. -/
theorem txHash_eq_outputs {a b : Transaction} (h : txHash a = txHash b) :
    a.outputs = b.outputs := by
  simp only [txHash, Nat.pair_eq_pair] at h
  have hmap := encL_inj h.2.2.1
  have hinj : Function.Injective encOutput := fun _ _ => encOutput_inj
  exact (List.map_injective_iff.mpr hinj) hmap

theorem commitTx_hash_by_height (s : FinalizedState) (t : Transaction) :
    (commitTx s t).hash_by_height = s.hash_by_height := rfl

theorem commitTx_height_by_hash (s : FinalizedState) (t : Transaction) :
    (commitTx s t).height_by_hash = s.height_by_hash := rfl

theorem commitTx_block_by_height (s : FinalizedState) (t : Transaction) :
    (commitTx s t).block_by_height = s.block_by_height := rfl

theorem commitTx_queued (s : FinalizedState) (t : Transaction) :
    (commitTx s t).queued_by_prev_hash = s.queued_by_prev_hash := rfl

theorem foldl_commitTx_hash_by_height (ts : List Transaction) (s : FinalizedState) :
    (List.foldl commitTx s ts).hash_by_height = s.hash_by_height := by
  induction ts generalizing s with
  | nil => rfl
  | cons t ts ih => rw [List.foldl_cons, ih, commitTx_hash_by_height]

theorem foldl_commitTx_height_by_hash (ts : List Transaction) (s : FinalizedState) :
    (List.foldl commitTx s ts).height_by_hash = s.height_by_hash := by
  induction ts generalizing s with
  | nil => rfl
  | cons t ts ih => rw [List.foldl_cons, ih, commitTx_height_by_hash]

theorem foldl_commitTx_block_by_height (ts : List Transaction) (s : FinalizedState) :
    (List.foldl commitTx s ts).block_by_height = s.block_by_height := by
  induction ts generalizing s with
  | nil => rfl
  | cons t ts ih => rw [List.foldl_cons, ih, commitTx_block_by_height]

theorem foldl_commitTx_queued (ts : List Transaction) (s : FinalizedState) :
    (List.foldl commitTx s ts).queued_by_prev_hash = s.queued_by_prev_hash := by
  induction ts generalizing s with
  | nil => rfl
  | cons t ts ih => rw [List.foldl_cons, ih, commitTx_queued]

/-- A successful `commit_finalized_direct` returns the block's hash and
updates the three header-level trees exactly by the three single-key inserts
at the block's coinbase height, leaving the queue untouched. -/
theorem commit_spec {s : FinalizedState} {b : Block} {ch : Nat}
    (hc : Block.coinbase_height b = some ch) :
    ∃ s', commit_finalized_direct s b = some (blockHash b, s') ∧
      s'.queued_by_prev_hash = s.queued_by_prev_hash ∧
      s'.hash_by_height = insertT (encHeight ch) (blockHash b) s.hash_by_height ∧
      s'.height_by_hash = insertT (encBHash (blockHash b)) ch s.height_by_hash ∧
      s'.block_by_height = insertT (encHeight ch) b s.block_by_height := by
  simp only [commit_finalized_direct, hc]
  exact ⟨_, rfl, by rw [foldl_commitTx_queued], by rw [foldl_commitTx_hash_by_height],
    by rw [foldl_commitTx_height_by_hash], by rw [foldl_commitTx_block_by_height]⟩

theorem commit_isSome {s : FinalizedState} {b : Block} {ch : Nat}
    (hc : Block.coinbase_height b = some ch) :
    (commit_finalized_direct s b).isSome := by
  rw [commit_finalized_direct, hc]
  rfl

/-- Model of `tip` ignores the in-memory queue. -/
theorem tip_queue_irrel (s : FinalizedState) (q : List (Nat × QueuedBlock)) :
    tip { s with queued_by_prev_hash := q } = tip s := rfl

theorem finalized_tip_hash_queue_irrel (s : FinalizedState)
    (q : List (Nat × QueuedBlock)) :
    finalized_tip_hash { s with queued_by_prev_hash := q } = finalized_tip_hash s := rfl

theorem wellKeyed_insertT {l : TreeM Nat} (hk : WellKeyed l) {h : Nat}
    (hh : h < 2 ^ 32) (v : Nat) : WellKeyed (insertT (encHeight h) v l) := by
  intro e he
  rcases mem_insertT he with rfl | he'
  · exact ⟨h, hh, rfl⟩
  · exact hk e he'

/-- In a sorted, well-keyed tree the tip height dominates every committed
height. -/
theorem tip_is_max {s : FinalizedState} (hs : TSorted s.hash_by_height)
    (hk : WellKeyed s.hash_by_height) {t x : Nat} (ht : tip s = some (t, x)) :
    ∀ h' x', h' < 2 ^ 32 → getT s.hash_by_height (encHeight h') = some x' → h' ≤ t := by
  intro h' x' hlt hget
  rcases hlast : lastT s.hash_by_height with _ | e
  · rw [tip, hlast] at ht
    exact absurd ht (by simp)
  · obtain ⟨kb, xv⟩ := e
    rw [tip, hlast] at ht
    simp only [Option.some.injEq, Prod.mk.injEq] at ht
    obtain ⟨hdec, hxeq⟩ := ht
    obtain ⟨hmax, hmaxlt, hkb0⟩ := hk _ (lastT_mem hlast)
    have hkb : kb = encHeight hmax := hkb0
    subst hkb
    rw [decodeHeight_encHeight hmaxlt] at hdec
    rcases lastT_max hs hlast (getT_mem hget) with heq | hlt2
    · injection heq with hk1 hk2
      have := encHeight_inj hlt hmaxlt hk1
      omega
    · have hlt2' : bytesLt (encHeight h') (encHeight hmax) = true := hlt2
      by_cases hcmp : h' ≤ hmax
      · omega
      · have hgt : bytesLt (encHeight hmax) (encHeight h') = true :=
          bytesLt_encHeight (by omega) hlt
        have := bytesLt_asymm hgt
        rw [this] at hlt2'
        exact absurd hlt2' (by simp)

/-- Committing a block whose coinbase height exceeds every committed height
appends to `hash_by_height`, so the tip advances to the new block. -/
theorem tip_after_commit {s : FinalizedState} {b : Block} {ch : Nat}
    (hs : TSorted s.hash_by_height) (hk : WellKeyed s.hash_by_height)
    (hc : Block.coinbase_height b = some ch) (hch : ch < 2 ^ 32)
    (habove : ∀ h' x', h' < 2 ^ 32 → getT s.hash_by_height (encHeight h') = some x' → h' < ch) :
    ∃ s', commit_finalized_direct s b = some (blockHash b, s') ∧
      tip s' = some (ch, blockHash b) ∧
      TSorted s'.hash_by_height ∧ WellKeyed s'.hash_by_height ∧
      s'.queued_by_prev_hash = s.queued_by_prev_hash ∧
      getT s'.hash_by_height (encHeight ch) = some (blockHash b) ∧
      getT s'.block_by_height (encHeight ch) = some b := by
  obtain ⟨s', hcommit, hq, hhh, hbh, hblk⟩ := commit_spec hc
  have hins : insertT (encHeight ch) (blockHash b) s.hash_by_height
      = s.hash_by_height ++ [(encHeight ch, blockHash b)] := by
    refine insertT_append _ ?_
    intro e he
    obtain ⟨h', hlt', hkey⟩ := hk e he
    obtain ⟨x', hx'⟩ : ∃ x', getT s.hash_by_height e.1 = some x' := by
      rcases hget : getT s.hash_by_height e.1 with _ | x'
      · rw [getT_none_iff] at hget
        exact absurd rfl (hget e he)
      · exact ⟨x', rfl⟩
    rw [hkey] at hx' ⊢
    exact bytesLt_encHeight (habove h' x' hlt' hx') hch
  refine ⟨s', hcommit, ?_, ?_, ?_, hq, ?_, ?_⟩
  · rw [tip, lastT, hhh, hins, List.getLast?_append_cons]
    simp [decodeHeight_encHeight hch]
  · rw [hhh]; exact tsorted_insertT hs _ _
  · rw [hhh]; exact wellKeyed_insertT hk hch _
  · rw [hhh]; exact getT_insertT_self _ _ _
  · rw [hblk]; exact getT_insertT_self _ _ _

theorem drainGo_none (fuel : Nat) {s : FinalizedState}
    (h : alLookup s.queued_by_prev_hash (finalized_tip_hash s) = none) :
    drainGo fuel s = some (s, []) := by
  cases fuel <;> simp [drainGo, h]

/-- Enqueueing a block whose parent chain is not at the tip (and with no
other drainable entry) only stores it in the queue. -/
theorem queue_enqueue_noop {s : FinalizedState} {qb : QueuedBlock}
    (h : alLookup
      (alInsert s.queued_by_prev_hash qb.block.header.previous_block_hash qb)
      (finalized_tip_hash s) = none) :
    queue_and_commit_finalized_blocks s qb =
      some ({ s with
              queued_by_prev_hash :=
                alInsert s.queued_by_prev_hash
                  qb.block.header.previous_block_hash qb },
            []) := by
  rw [queue_and_commit_finalized_blocks]
  exact drainGo_none _ h

/-- Extend `tip_after_commit` with the exact tree shapes, for frame
reasoning across a second commit. -/
theorem tip_after_commit_trees {s : FinalizedState} {b : Block} {ch : Nat}
    (hs : TSorted s.hash_by_height) (hk : WellKeyed s.hash_by_height)
    (hc : Block.coinbase_height b = some ch) (hch : ch < 2 ^ 32)
    (habove : ∀ h' x', h' < 2 ^ 32 → getT s.hash_by_height (encHeight h') = some x' → h' < ch) :
    ∃ s', commit_finalized_direct s b = some (blockHash b, s') ∧
      tip s' = some (ch, blockHash b) ∧
      TSorted s'.hash_by_height ∧ WellKeyed s'.hash_by_height ∧
      s'.queued_by_prev_hash = s.queued_by_prev_hash ∧
      s'.hash_by_height = insertT (encHeight ch) (blockHash b) s.hash_by_height ∧
      s'.block_by_height = insertT (encHeight ch) b s.block_by_height := by
  obtain ⟨s', hcommit, htip, hsrt, hwk, hq, _, _⟩ :=
    tip_after_commit hs hk hc hch habove
  obtain ⟨s'', hcommit2, hq2, hhh2, _, hblk2⟩ := commit_spec (s := s) hc
  rw [hcommit] at hcommit2
  injection hcommit2 with hcommit2
  injection hcommit2 with _ hstate
  subst hstate
  exact ⟨s', hcommit, htip, hsrt, hwk, hq, hhh2, hblk2⟩

/-- Draining a parent block with one buffered child commits both, parent
first, in a single pass. -/
theorem drain_run_two {s : FinalizedState} {qbPar qbChild : QueuedBlock}
    {hpar hch : Nat}
    (hs : TSorted s.hash_by_height) (hk : WellKeyed s.hash_by_height)
    (hq : s.queued_by_prev_hash = [(blockHash qbPar.block, qbChild)])
    (hprev : qbPar.block.header.previous_block_hash = finalized_tip_hash s)
    (hcP : Block.coinbase_height qbPar.block = some hpar)
    (hcC : Block.coinbase_height qbChild.block = some hch)
    (habove : ∀ h' x', h' < 2 ^ 32 → getT s.hash_by_height (encHeight h') = some x' → h' < hpar)
    (hpar32 : hpar < 2 ^ 32) (hch32 : hch < 2 ^ 32) (hchpar : hpar < hch)
    (hne : blockHash qbPar.block ≠ finalized_tip_hash s) :
    ∃ s3, queue_and_commit_finalized_blocks s qbPar =
        some (s3, [blockHash qbPar.block, blockHash qbChild.block]) ∧
      s3.queued_by_prev_hash = [] ∧
      getT s3.block_by_height (encHeight hpar) = some qbPar.block ∧
      getT s3.block_by_height (encHeight hch) = some qbChild.block ∧
      tip s3 = some (hch, blockHash qbChild.block) := by
  have hneq : finalized_tip_hash s ≠ blockHash qbPar.block := Ne.symm hne
  -- the queue after the insert
  have hqins : alInsert s.queued_by_prev_hash
      qbPar.block.header.previous_block_hash qbPar
      = [(blockHash qbPar.block, qbChild), (finalized_tip_hash s, qbPar)] := by
    rw [hq, hprev]
    simp [alInsert, hneq]
  rw [queue_and_commit_finalized_blocks, hqins]
  set s0 : FinalizedState := { s with queued_by_prev_hash :=
    [(blockHash qbPar.block, qbChild), (finalized_tip_hash s, qbPar)] } with hs0
  have hkey0 : finalized_tip_hash s0 = finalized_tip_hash s := rfl
  have hlook0 : alLookup s0.queued_by_prev_hash (finalized_tip_hash s0) = some qbPar := by
    rw [hkey0, hs0]
    simp [alLookup, hneq]
  have hbne1 : (blockHash qbPar.block != finalized_tip_hash s) = true := by
    simp [bne_iff_ne, hne]
  have hbne2 : (finalized_tip_hash s != finalized_tip_hash s) = false := by
    simp
  have hrem0 : alRemove s0.queued_by_prev_hash (finalized_tip_hash s0)
      = [(blockHash qbPar.block, qbChild)] := by
    rw [hkey0, hs0]
    simp only [alRemove, List.filter_cons, List.filter_nil, hbne1, hbne2]
    rfl
  -- first commit: the parent
  obtain ⟨s2, hcommit1, htip2, hsrt2, hwk2, hq2, hhh2, hblk2⟩ :=
    tip_after_commit_trees (s := { s0 with queued_by_prev_hash :=
        [(blockHash qbPar.block, qbChild)] }) (b := qbPar.block)
      hs hk hcP hpar32 habove
  have hkey2 : finalized_tip_hash s2 = blockHash qbPar.block := by
    rw [finalized_tip_hash, htip2]
  have hlook2 : alLookup s2.queued_by_prev_hash (finalized_tip_hash s2) = some qbChild := by
    rw [hkey2, hq2]
    simp [alLookup]
  have hrem2 : alRemove s2.queued_by_prev_hash (finalized_tip_hash s2) = [] := by
    rw [hkey2, hq2]
    simp [alRemove]
  -- second commit: the child
  have habove2 : ∀ h' x', h' < 2 ^ 32 →
      getT s2.hash_by_height (encHeight h') = some x' → h' < hch := by
    intro h' x' hlt hget
    have := tip_is_max hsrt2 hwk2 htip2 h' x' hlt hget
    omega
  obtain ⟨s3, hcommit2, htip3, hsrt3, hwk3, hq3, hhh3, hblk3⟩ :=
    tip_after_commit_trees (s := { s2 with queued_by_prev_hash := [] })
      (b := qbChild.block) hsrt2 hwk2 hcC hch32 habove2
  have hq3nil : s3.queued_by_prev_hash = [] := hq3
  have hlook3 : alLookup s3.queued_by_prev_hash (finalized_tip_hash s3) = none := by
    rw [hq3nil]
    rfl
  refine ⟨s3, ?_, hq3nil, ?_, ?_, htip3⟩
  · show drainGo 2 s0 = some (s3, [blockHash qbPar.block, blockHash qbChild.block])
    rw [show (2 : Nat) = 1 + 1 from rfl]
    simp only [drainGo, hlook0, hrem0, hcP, hcommit1, hlook2, hrem2, hcC, hcommit2,
      hlook3, Option.map_some']
  · rw [hblk3, getT_insertT_ne]
    · rw [hblk2]
      exact getT_insertT_self _ _ _
    · intro hcontra
      have := encHeight_inj hpar32 hch32 hcontra
      omega
  · rw [hblk3]
    exact getT_insertT_self _ _ _

theorem getT_nullFold_old {l : List Nat} {tr : TreeM Unit} {k : Bytes}
    (h : getT tr k = some ()) :
    getT (l.foldl (fun tr n => insertT (encNullifier n) () tr) tr) k = some () := by
  induction l generalizing tr with
  | nil => exact h
  | cons a t ih =>
    rw [List.foldl_cons]
    refine ih ?_
    by_cases hk : k = encNullifier a
    · rw [hk]
      exact getT_insertT_self _ _ _
    · rw [getT_insertT_ne _ _ hk]
      exact h

theorem getT_nullFold_mem {l : List Nat} {tr : TreeM Unit} {n : Nat} (h : n ∈ l) :
    getT (l.foldl (fun tr n => insertT (encNullifier n) () tr) tr) (encNullifier n)
      = some () := by
  induction l generalizing tr with
  | nil => simp at h
  | cons a t ih =>
    rw [List.foldl_cons]
    rcases List.mem_cons.mp h with rfl | h'
    · exact getT_nullFold_old (getT_insertT_self _ _ _)
    · exact ih h'

theorem commitTx_sprout (s : FinalizedState) (t : Transaction) :
    (commitTx s t).sprout_nullifiers
      = t.sproutNullifiers.foldl (fun tr n => insertT (encNullifier n) () tr)
          s.sprout_nullifiers := rfl

theorem commitTx_sapling (s : FinalizedState) (t : Transaction) :
    (commitTx s t).sapling_nullifiers
      = t.saplingNullifiers.foldl (fun tr n => insertT (encNullifier n) () tr)
          s.sapling_nullifiers := rfl

theorem foldl_commitTx_sprout_old {ts : List Transaction} {s : FinalizedState} {n : Nat}
    (h : getT s.sprout_nullifiers (encNullifier n) = some ()) :
    getT (List.foldl commitTx s ts).sprout_nullifiers (encNullifier n) = some () := by
  induction ts generalizing s with
  | nil => exact h
  | cons t ts ih =>
    rw [List.foldl_cons]
    exact ih (by rw [commitTx_sprout]; exact getT_nullFold_old h)

theorem foldl_commitTx_sapling_old {ts : List Transaction} {s : FinalizedState} {n : Nat}
    (h : getT s.sapling_nullifiers (encNullifier n) = some ()) :
    getT (List.foldl commitTx s ts).sapling_nullifiers (encNullifier n) = some () := by
  induction ts generalizing s with
  | nil => exact h
  | cons t ts ih =>
    rw [List.foldl_cons]
    exact ih (by rw [commitTx_sapling]; exact getT_nullFold_old h)

theorem foldl_commitTx_sprout_mem {ts : List Transaction} {s : FinalizedState}
    {t : Transaction} {n : Nat} (ht : t ∈ ts) (hn : n ∈ t.sproutNullifiers) :
    getT (List.foldl commitTx s ts).sprout_nullifiers (encNullifier n) = some () := by
  induction ts generalizing s with
  | nil => simp at ht
  | cons t0 ts ih =>
    rw [List.foldl_cons]
    rcases List.mem_cons.mp ht with rfl | ht'
    · exact foldl_commitTx_sprout_old (by rw [commitTx_sprout]; exact getT_nullFold_mem hn)
    · exact ih ht'

theorem foldl_commitTx_sapling_mem {ts : List Transaction} {s : FinalizedState}
    {t : Transaction} {n : Nat} (ht : t ∈ ts) (hn : n ∈ t.saplingNullifiers) :
    getT (List.foldl commitTx s ts).sapling_nullifiers (encNullifier n) = some () := by
  induction ts generalizing s with
  | nil => simp at ht
  | cons t0 ts ih =>
    rw [List.foldl_cons]
    rcases List.mem_cons.mp ht with rfl | ht'
    · exact foldl_commitTx_sapling_old (by rw [commitTx_sapling]; exact getT_nullFold_mem hn)
    · exact ih ht'

theorem commit_sprout_state (s : FinalizedState) (b : Block) (ch : Nat)
    (hc : Block.coinbase_height b = some ch) :
    ∃ s', commit_finalized_direct s b = some (blockHash b, s') ∧
      s'.sprout_nullifiers
        = (List.foldl commitTx { s with
            hash_by_height := insertT (encHeight ch) (blockHash b) s.hash_by_height,
            height_by_hash := insertT (encBHash (blockHash b)) ch s.height_by_hash,
            block_by_height := insertT (encHeight ch) b s.block_by_height }
            b.transactions).sprout_nullifiers := by
  simp only [commit_finalized_direct, hc]
  exact ⟨_, rfl, rfl⟩

theorem encOutPointKey_inj {a b i j : Nat} (h : encOutPointKey a i = encOutPointKey b j) :
    a = b ∧ i = j := by
  simp only [encOutPointKey, List.cons.injEq, and_true] at h
  exact h

theorem getT_utxoFold_cases {th : Nat} {l : List (Nat × Output)} {tr : TreeM Output}
    {k : Bytes} {v : Output}
    (h : getT (l.foldl (fun tr io => insertT (encOutPointKey th io.1) io.2 tr) tr) k
      = some v) :
    getT tr k = some v ∨ ∃ io ∈ l, encOutPointKey th io.1 = k ∧ io.2 = v := by
  induction l generalizing tr with
  | nil => exact Or.inl h
  | cons a t ih =>
    rw [List.foldl_cons] at h
    rcases ih h with h' | ⟨io, hio, hk, hv⟩
    · by_cases hk : k = encOutPointKey th a.1
      · rw [hk, getT_insertT_self] at h'
        injection h' with h'
        exact Or.inr ⟨a, List.mem_cons_self _ _, hk.symm, h'⟩
      · rw [getT_insertT_ne _ _ hk] at h'
        exact Or.inl h'
    · exact Or.inr ⟨io, List.mem_cons_of_mem _ hio, hk, hv⟩

theorem getT_utxoFold_preserve {th : Nat} {l : List (Nat × Output)} {tr : TreeM Output}
    {k : Bytes} {v : Output} (h : getT tr k = some v)
    (hval : ∀ io ∈ l, encOutPointKey th io.1 = k → io.2 = v) :
    getT (l.foldl (fun tr io => insertT (encOutPointKey th io.1) io.2 tr) tr) k
      = some v := by
  induction l generalizing tr with
  | nil => exact h
  | cons a t ih =>
    rw [List.foldl_cons]
    refine ih ?_ fun io hio => hval io (List.mem_cons_of_mem _ hio)
    by_cases hk : k = encOutPointKey th a.1
    · rw [hk, getT_insertT_self]
      rw [hval a (List.mem_cons_self _ _) hk.symm]
    · rw [getT_insertT_ne _ _ hk]
      exact h

theorem getT_utxoFold_sets {th : Nat} {l : List (Nat × Output)} {tr : TreeM Output}
    {i : Nat} {o : Output} (hmem : (i, o) ∈ l)
    (hval : ∀ io ∈ l, io.1 = i → io.2 = o) :
    getT (l.foldl (fun tr io => insertT (encOutPointKey th io.1) io.2 tr) tr)
      (encOutPointKey th i) = some o := by
  induction l generalizing tr with
  | nil => simp at hmem
  | cons a t ih =>
    rw [List.foldl_cons]
    by_cases ha : a.1 = i
    · have hao : a.2 = o := hval a (List.mem_cons_self _ _) ha
      by_cases hmem' : (i, o) ∈ t
      · exact ih hmem' fun io hio => hval io (List.mem_cons_of_mem _ hio)
      · refine getT_utxoFold_preserve ?_ ?_
        · rw [← ha, ← hao]
          exact getT_insertT_self _ _ _
        · intro io hio hk
          have := (encOutPointKey_inj hk).2
          exact hval io (List.mem_cons_of_mem _ hio) this
    · have hmem' : (i, o) ∈ t := by
        rcases List.mem_cons.mp hmem with heq | h'
        · exact absurd (congrArg Prod.fst heq).symm ha
        · exact h'
      exact ih hmem' fun io hio => hval io (List.mem_cons_of_mem _ hio)

theorem commitTx_utxo (s : FinalizedState) (t : Transaction) :
    (commitTx s t).utxo_by_outpoint
      = t.outputs.enum.foldl
          (fun tr io => insertT (encOutPointKey (txHash t) io.1) io.2 tr)
          s.utxo_by_outpoint := rfl

theorem utxoOk_commitTx {s : FinalizedState} {tx : Transaction} (h : UtxoOk s) :
    UtxoOk (commitTx s tx) := by
  intro t i v hget
  rw [commitTx_utxo] at hget
  rcases getT_utxoFold_cases hget with h' | ⟨io, hio, hk, hv⟩
  · exact h t i v h'
  · obtain ⟨hth, hidx⟩ := encOutPointKey_inj hk
    have houts : tx.outputs = t.outputs := txHash_eq_outputs hth
    have := List.mk_mem_enum_iff_getElem?.mp hio
    rw [houts, hidx] at this
    rw [this, hv]

theorem utxoOk_foldl_commitTx {ts : List Transaction} {s : FinalizedState}
    (h : UtxoOk s) : UtxoOk (List.foldl commitTx s ts) := by
  induction ts generalizing s with
  | nil => exact h
  | cons t ts ih =>
    rw [List.foldl_cons]
    exact ih (utxoOk_commitTx h)

theorem utxoOk_commit {s : FinalizedState} {b : Block} {x : Nat} {s' : FinalizedState}
    (h : UtxoOk s) (hc : commit_finalized_direct s b = some (x, s')) : UtxoOk s' := by
  rw [commit_finalized_direct] at hc
  rcases hcb : Block.coinbase_height b with _ | ch
  · rw [hcb] at hc
    exact absurd hc (by simp)
  · rw [hcb] at hc
    simp only [Option.some.injEq, Prod.mk.injEq] at hc
    obtain ⟨_, hs'⟩ := hc
    rw [← hs']
    exact utxoOk_foldl_commitTx h

/-- A specific utxo entry, once present with the value dictated by its
transaction, survives any later transaction indexing. -/
theorem utxo_entry_commitTx {s : FinalizedState} {t : Transaction} {i : Nat} {o : Output}
    (hout : t.outputs[i]? = some o)
    (hget : getT s.utxo_by_outpoint (encOutPointKey (txHash t) i) = some o)
    (tx : Transaction) :
    getT (commitTx s tx).utxo_by_outpoint (encOutPointKey (txHash t) i) = some o := by
  rw [commitTx_utxo]
  refine getT_utxoFold_preserve hget ?_
  intro io hio hk
  obtain ⟨hth, hidx⟩ := encOutPointKey_inj hk
  have houts : tx.outputs = t.outputs := txHash_eq_outputs hth
  have := List.mk_mem_enum_iff_getElem?.mp hio
  rw [houts, hidx, hout] at this
  injection this with h'
  exact h'.symm

theorem utxo_entry_foldl_commitTx {ts : List Transaction} {s : FinalizedState}
    {t : Transaction} {i : Nat} {o : Output} (hout : t.outputs[i]? = some o)
    (hget : getT s.utxo_by_outpoint (encOutPointKey (txHash t) i) = some o) :
    getT (List.foldl commitTx s ts).utxo_by_outpoint (encOutPointKey (txHash t) i)
      = some o := by
  induction ts generalizing s with
  | nil => exact hget
  | cons tx ts ih =>
    rw [List.foldl_cons]
    exact ih (utxo_entry_commitTx hout hget tx)

theorem utxo_entry_commit {s : FinalizedState} {b : Block} {x : Nat} {s' : FinalizedState}
    {t : Transaction} {i : Nat} {o : Output} (hout : t.outputs[i]? = some o)
    (hget : getT s.utxo_by_outpoint (encOutPointKey (txHash t) i) = some o)
    (hc : commit_finalized_direct s b = some (x, s')) :
    getT s'.utxo_by_outpoint (encOutPointKey (txHash t) i) = some o := by
  rw [commit_finalized_direct] at hc
  rcases hcb : Block.coinbase_height b with _ | ch
  · rw [hcb] at hc
    exact absurd hc (by simp)
  · rw [hcb] at hc
    simp only [Option.some.injEq, Prod.mk.injEq] at hc
    obtain ⟨_, hs'⟩ := hc
    rw [← hs']
    exact utxo_entry_foldl_commitTx hout hget

theorem utxo_entry_created_fold {ts : List Transaction} {s : FinalizedState}
    {t : Transaction} {i : Nat} {o : Output}
    (ht : t ∈ ts) (hout : t.outputs[i]? = some o) :
    getT (List.foldl commitTx s ts).utxo_by_outpoint (encOutPointKey (txHash t) i)
      = some o := by
  induction ts generalizing s with
  | nil => simp at ht
  | cons t0 ts ih =>
    rw [List.foldl_cons]
    rcases List.mem_cons.mp ht with rfl | ht'
    · refine utxo_entry_foldl_commitTx hout ?_
      rw [commitTx_utxo]
      refine getT_utxoFold_sets (List.mk_mem_enum_iff_getElem?.mpr hout) ?_
      intro io hio hidx
      have := List.mk_mem_enum_iff_getElem?.mp hio
      rw [hidx, hout] at this
      injection this with h'
      exact h'.symm
    · exact ih ht'

/-- Committing a block inserts every output of every transaction under its
outpoint. -/
theorem utxo_entry_created {s : FinalizedState} {b : Block} {x : Nat}
    {s' : FinalizedState} {t : Transaction} {i : Nat} {o : Output}
    (ht : t ∈ b.transactions) (hout : t.outputs[i]? = some o)
    (hc : commit_finalized_direct s b = some (x, s')) :
    getT s'.utxo_by_outpoint (encOutPointKey (txHash t) i) = some o := by
  rw [commit_finalized_direct] at hc
  rcases hcb : Block.coinbase_height b with _ | ch
  · rw [hcb] at hc
    exact absurd hc (by simp)
  · rw [hcb] at hc
    simp only [Option.some.injEq, Prod.mk.injEq] at hc
    obtain ⟨_, hs'⟩ := hc
    rw [← hs']
    exact utxo_entry_created_fold ht hout

theorem anyInv_step {s : FinalizedState} {b : Block} {ch x : Nat}
    {s' : FinalizedState} (hi : AnyInv s) (hc : Block.coinbase_height b = some ch)
    (hch : ch < 2 ^ 32) (hcommit : commit_finalized_direct s b = some (x, s')) :
    AnyInv s' := by
  obtain ⟨hsrt, hwk, hcov, hok⟩ := hi
  obtain ⟨s'', hcommit2, _, hhh, hbh, _⟩ := commit_spec (s := s) hc
  rw [hcommit] at hcommit2
  injection hcommit2 with hcommit2
  injection hcommit2 with _ hstate
  subst hstate
  refine ⟨?_, ?_, ?_, utxoOk_commit hok hcommit⟩
  · rw [hhh]
    exact tsorted_insertT hsrt _ _
  · rw [hhh]
    exact wellKeyed_insertT hwk hch _
  · intro x0 h0 hget
    rw [hbh] at hget
    by_cases hx : x0 = blockHash b
    · subst hx
      rw [getT_insertT_self] at hget
      injection hget with hget
      subst hget
      refine ⟨hch, blockHash b, ?_⟩
      rw [hhh]
      exact getT_insertT_self _ _ _
    · have hkne : encBHash x0 ≠ encBHash (blockHash b) := by
        intro hcontra
        exact hx (by simpa [encBHash] using hcontra)
      rw [getT_insertT_ne _ _ hkne] at hget
      obtain ⟨hlt, y, hy⟩ := hcov x0 h0 hget
      refine ⟨hlt, ?_⟩
      by_cases hh : h0 = ch
      · subst hh
        refine ⟨blockHash b, ?_⟩
        rw [hhh]
        exact getT_insertT_self _ _ _
      · refine ⟨y, ?_⟩
        rw [hhh, getT_insertT_ne]
        · exact hy
        · intro hcontra
          exact hh (encHeight_inj hlt hch hcontra)

theorem reachableAny_inv {s : FinalizedState} (hr : ReachableAny s) : AnyInv s := by
  induction hr with
  | init =>
    refine ⟨tsorted_nil, ?_, ?_, ?_⟩
    · intro e he
      simp [emptyState] at he
    · intro x h hget
      simp [emptyState, getT] at hget
    · intro t i v hget
      simp [emptyState, getT] at hget
  | step hr hcb hch hcommit ih => exact anyInv_step ih hcb hch hcommit

theorem encHeight_lt_rev {a b : Nat} (ha : a < 2 ^ 32) (hb : b < 2 ^ 32)
    (h : bytesLt (encHeight a) (encHeight b) = true) : a < b := by
  by_contra hcon
  push_neg at hcon
  rcases Nat.eq_or_lt_of_le hcon with heq | hlt
  · rw [heq] at h
    rw [bytesLt_irrefl] at h
    exact absurd h (by simp)
  · have := bytesLt_encHeight hlt ha
    have := bytesLt_asymm this
    rw [this] at h
    exact absurd h (by simp)

theorem invN_empty : InvN emptyState 0 := by
  refine ⟨tsorted_nil, tsorted_nil, by omega, ?_, ?_, ?_, ?_, ?_⟩
  · intro h hlt
    omega
  · intro e he
    simp [emptyState] at he
  · intro h x hlt
    omega
  · intro h h' x hlt
    omega
  · intro e he
    simp [emptyState] at he

theorem invN_tree_nil {s : FinalizedState} (hi : InvN s 0) : s.hash_by_height = [] := by
  rw [List.eq_nil_iff_forall_not_mem]
  intro e he
  obtain ⟨h, hlt, _⟩ := hi.keys e he
  omega

theorem invN_tip_zero {s : FinalizedState} (hi : InvN s 0) : tip s = none := by
  rw [tip, lastT, invN_tree_nil hi]
  rfl

theorem invN_tip_succ {s : FinalizedState} {n : Nat} (hi : InvN s (n + 1)) :
    ∃ x, getT s.hash_by_height (encHeight n) = some x ∧ tip s = some (n, x) := by
  obtain ⟨x, hx⟩ := hi.dom n (Nat.lt_succ_self n)
  have hmem := getT_mem hx
  have hne : s.hash_by_height ≠ [] := by
    intro hcon
    rw [hcon] at hmem
    simp at hmem
  obtain ⟨e, he⟩ : ∃ e, lastT s.hash_by_height = some e :=
    ⟨_, by rw [lastT, List.getLast?_eq_getLast_of_ne_nil hne]⟩
  obtain ⟨h0, h0lt, hkey⟩ := hi.keys e (lastT_mem he)
  have hn32 : n < 2 ^ 32 := by
    have := hi.bound
    omega
  have h032 : h0 < 2 ^ 32 := by
    have := hi.bound
    omega
  rcases lastT_max hi.srtH he hmem with heq | hlt
  · refine ⟨x, hx, ?_⟩
    rw [tip, he, ← heq]
    simp [decodeHeight_encHeight hn32]
  · exfalso
    rw [hkey] at hlt
    have := encHeight_lt_rev hn32 h032 hlt
    omega

theorem invN_nextHeight {s : FinalizedState} {N : Nat} (hi : InvN s N) :
    nextHeight s = N := by
  cases N with
  | zero =>
    rw [nextHeight, finalized_tip_height, invN_tip_zero hi]
    rfl
  | succ n =>
    obtain ⟨x, _, htip⟩ := invN_tip_succ hi
    rw [nextHeight, finalized_tip_height, htip]
    rfl

theorem invN_no_collision {s : FinalizedState} {N : Nat} {b : Block} {h' : Nat}
    (hi : InvN s N)
    (hprev : b.header.previous_block_hash = finalized_tip_hash s)
    (hlt : h' < N)
    (hcol : getT s.hash_by_height (encHeight h') = some (blockHash b)) : False := by
  obtain ⟨hrev, b', hb', hbh', hcb', hzero', hsucc'⟩ := hi.link h' _ hlt hcol
  have hprev' : b'.header.previous_block_hash = b.header.previous_block_hash :=
    headerHash_eq_prev hbh'
  obtain ⟨n, rfl⟩ : ∃ n, N = n + 1 := ⟨N - 1, by omega⟩
  obtain ⟨xn, hxn, htip⟩ := invN_tip_succ hi
  have htiph : finalized_tip_hash s = xn := by
    rw [finalized_tip_hash, htip]
  by_cases h0 : h' = 0
  · have hz := hzero' h0
    rw [hprev', hprev, htiph] at hz
    obtain ⟨_, bn, _, hbn, _⟩ := hi.link n xn (Nat.lt_succ_self n) hxn
    rw [← hbn] at hz
    have := headerHash_pos bn.header
    rw [blockHash] at hz
    rw [GENESIS_PREVIOUS_BLOCK_HASH] at hz
    omega
  · obtain ⟨hp, rfl⟩ : ∃ hp, h' = hp + 1 := ⟨h' - 1, by omega⟩
    obtain ⟨xp, hxp, hprevp⟩ := hsucc' hp rfl
    have hxpn : xp = xn := by
      rw [← hprevp, hprev', hprev, htiph]
    rw [hxpn] at hxp
    have := hi.inj hp n xn (by omega) (Nat.lt_succ_self n) hxp hxn
    omega

/-- One well-formed commit extends the chain invariant by one height. -/
theorem invN_step {s : FinalizedState} {N : Nat} {b : Block} {x : Nat}
    {s' : FinalizedState} (hi : InvN s N) (hw : WfStep s b)
    (hcommit : commit_finalized_direct s b = some (x, s')) : InvN s' (N + 1) := by
  obtain ⟨hprev, hcb0, hlt32⟩ := hw
  rw [invN_nextHeight hi] at hcb0 hlt32
  obtain ⟨s'', hc2, hq, hhh, hbh, hblk⟩ := commit_spec (s := s) hcb0
  rw [hcommit] at hc2
  injection hc2 with hc2
  injection hc2 with hx hstate
  subst hstate
  have hN32 : N < 2 ^ 32 := hlt32
  have hframeH : ∀ h0, h0 ≠ N → h0 < 2 ^ 32 →
      getT s'.hash_by_height (encHeight h0) = getT s.hash_by_height (encHeight h0) := by
    intro h0 hne h032
    rw [hhh]
    apply getT_insertT_ne
    intro hcon
    exact hne (encHeight_inj h032 hN32 hcon)
  have hselfH : getT s'.hash_by_height (encHeight N) = some (blockHash b) := by
    rw [hhh]
    exact getT_insertT_self _ _ _
  have hframeB : ∀ h0, h0 ≠ N → h0 < 2 ^ 32 →
      getT s'.block_by_height (encHeight h0) = getT s.block_by_height (encHeight h0) := by
    intro h0 hne h032
    rw [hblk]
    apply getT_insertT_ne
    intro hcon
    exact hne (encHeight_inj h032 hN32 hcon)
  have hframeHH : ∀ x0, x0 ≠ blockHash b →
      getT s'.height_by_hash (encBHash x0) = getT s.height_by_hash (encBHash x0) := by
    intro x0 hne
    rw [hbh]
    apply getT_insertT_ne
    intro hcon
    exact hne (by simpa [encBHash] using hcon)
  have hnocol : ∀ h0, h0 < N → getT s.hash_by_height (encHeight h0) = some (blockHash b)
      → False := fun h0 hl hc => invN_no_collision hi hprev hl hc
  refine ⟨?_, ?_, by omega, ?_, ?_, ?_, ?_, ?_⟩
  · rw [hhh]
    exact tsorted_insertT hi.srtH _ _
  · rw [hbh]
    exact tsorted_insertT hi.srtHH _ _
  · -- dom
    intro h hlt
    by_cases hN : h = N
    · subst hN
      exact ⟨blockHash b, hselfH⟩
    · obtain ⟨y, hy⟩ := hi.dom h (by omega)
      refine ⟨y, ?_⟩
      rw [hframeH h hN (by omega)]
      exact hy
  · -- keys
    intro e he
    rw [hhh] at he
    rcases mem_insertT he with rfl | he'
    · exact ⟨N, by omega, rfl⟩
    · obtain ⟨h, hlt, hkey⟩ := hi.keys e he'
      exact ⟨h, by omega, hkey⟩
  · -- link
    intro h x0 hlt hget
    by_cases hN : h = N
    · subst hN
      rw [hselfH] at hget
      injection hget with hget
      subst hget
      refine ⟨?_, b, ?_, rfl, hcb0, ?_, ?_⟩
      · rw [hbh]
        exact getT_insertT_self _ _ _
      · rw [hblk]
        exact getT_insertT_self _ _ _
      · intro h0
        subst h0
        rw [hprev, finalized_tip_hash, invN_tip_zero hi]
      · intro hp hNp
        have hplt : hp < h := by omega
        obtain ⟨xp, hxp⟩ := hi.dom hp hplt
        refine ⟨xp, ?_, ?_⟩
        · rw [hframeH hp (by omega) (by omega)]
          exact hxp
        · rw [hprev]
          rcases hNp with rfl
          obtain ⟨xn, hxn, htip⟩ := invN_tip_succ hi
          rw [hxn] at hxp
          injection hxp with hxp
          rw [finalized_tip_hash, htip, hxp]
    · have hlt' : h < N := by omega
      have h32 : h < 2 ^ 32 := by omega
      rw [hframeH h hN h32] at hget
      obtain ⟨hrev0, b0, hb0, hbh0, hcb0', hzero0, hsucc0⟩ := hi.link h x0 hlt' hget
      refine ⟨?_, b0, ?_, hbh0, hcb0', hzero0, ?_⟩
      · have hxne : x0 ≠ blockHash b := by
          intro hcon
          subst hcon
          exact hnocol h hlt' hget
        rw [hframeHH x0 hxne]
        exact hrev0
      · rw [hframeB h hN h32]
        exact hb0
      · intro hp hNp
        obtain ⟨xp, hxp, hprevp⟩ := hsucc0 hp hNp
        refine ⟨xp, ?_, hprevp⟩
        rw [hframeH hp (by omega) (by omega)]
        exact hxp
  · -- inj
    intro h h' x0 hlt hlt' hget hget'
    by_cases hN : h = N <;> by_cases hN' : h' = N
    · omega
    · subst hN
      rw [hselfH] at hget
      injection hget with hget
      rw [hframeH h' hN' (by omega)] at hget'
      rw [← hget] at hget'
      exact absurd hget' (fun hc => hnocol h' (by omega) hc)
    · subst hN'
      rw [hselfH] at hget'
      injection hget' with hget'
      rw [hframeH h hN (by omega)] at hget
      rw [← hget'] at hget
      exact absurd hget (fun hc => hnocol h (by omega) hc)
    · rw [hframeH h hN (by omega)] at hget
      rw [hframeH h' hN' (by omega)] at hget'
      exact hi.inj h h' x0 (by omega) (by omega) hget hget'
  · -- rev
    intro e he
    rw [hbh] at he
    rcases mem_insertT he with rfl | he'
    · exact ⟨blockHash b, N, rfl, by omega, hselfH⟩
    · obtain ⟨x0, h0, rfl, h0lt, hx0⟩ := hi.rev e he'
      refine ⟨x0, h0, rfl, by omega, ?_⟩
      rw [hframeH h0 (by omega) (by omega)]
      exact hx0

theorem reachableWf_inv {s : FinalizedState} (hr : ReachableWf s) :
    ∃ N, InvN s N := by
  induction hr with
  | init => exact ⟨0, invN_empty⟩
  | step hr hw hcommit ih =>
    obtain ⟨N, hi⟩ := ih
    exact ⟨N + 1, invN_step hi hw hcommit⟩

theorem puLookup_remove_self (m : PendingUtxos) (o : OutPoint) :
    puLookup (puRemove m o) o = none := by
  induction m with
  | nil => rfl
  | cons e t ih =>
    obtain ⟨k, v⟩ := e
    by_cases hk : k = o
    · subst hk
      simp only [puRemove, List.filter_cons, bne_self_eq_false]
      exact ih
    · have hb2 : (k != o) = true := by simp [bne_iff_ne, hk]
      have hne : o ≠ k := fun hc => hk hc.symm
      simp only [puRemove, List.filter_cons, hb2, if_true, puLookup, if_neg hne]
      exact ih

theorem puLookup_remove_ne (m : PendingUtxos) {o o' : OutPoint} (h : o' ≠ o) :
    puLookup (puRemove m o) o' = puLookup m o' := by
  induction m with
  | nil => rfl
  | cons e t ih =>
    obtain ⟨k, v⟩ := e
    by_cases hk : k = o
    · subst hk
      simp only [puRemove, List.filter_cons, bne_self_eq_false]
      rw [puLookup, if_neg h]
      exact ih
    · have hb : (k != o) = true := by simp [bne_iff_ne, hk]
      simp only [puRemove, List.filter_cons, hb, if_pos]
      by_cases hk' : o' = k
      · subst hk'
        rw [puLookup, if_pos rfl, puLookup, if_pos rfl]
      · rw [puLookup, if_neg hk', puLookup, if_neg hk']
        exact ih

/-- C1 (amended): committing a block whose transactions contain a nullifier
already present in the pool's set is not rejected: `commit_finalized_direct`
has no double-spend check, always succeeds for a block with a coinbase
height, returns its hash, and the nullifier inserts are plain (idempotent)
set insertions — every nullifier of the block and every previously present
nullifier is in the resulting pool set. -/
theorem spec_c1_amended (s : FinalizedState) (b : Block) (ch : Nat)
    (hc : Block.coinbase_height b = some ch) :
    ∃ s', commit_finalized_direct s b = some (blockHash b, s') ∧
      (∀ t ∈ b.transactions,
        (∀ n ∈ t.sproutNullifiers,
          getT s'.sprout_nullifiers (encNullifier n) = some ()) ∧
        (∀ n ∈ t.saplingNullifiers,
          getT s'.sapling_nullifiers (encNullifier n) = some ())) ∧
      (∀ n, getT s.sprout_nullifiers (encNullifier n) = some () →
        getT s'.sprout_nullifiers (encNullifier n) = some ()) ∧
      (∀ n, getT s.sapling_nullifiers (encNullifier n) = some () →
        getT s'.sapling_nullifiers (encNullifier n) = some ()) := by
  simp only [commit_finalized_direct, hc]
  refine ⟨_, rfl, ?_, ?_, ?_⟩
  · intro t ht
    exact ⟨fun n hn => foldl_commitTx_sprout_mem ht hn,
      fun n hn => foldl_commitTx_sapling_mem ht hn⟩
  · intro n hn
    exact foldl_commitTx_sprout_old hn
  · intro n hn
    exact foldl_commitTx_sapling_old hn

/-- C1 witness: the amended claim evaluated on a concrete double-spending
commit. -/
theorem spec_c1_witness :
    ∃ s', commit_finalized_direct exStateN1 exBlockN2 = some (blockHash exBlockN2, s') ∧
      (∀ t ∈ exBlockN2.transactions,
        (∀ n ∈ t.sproutNullifiers,
          getT s'.sprout_nullifiers (encNullifier n) = some ()) ∧
        (∀ n ∈ t.saplingNullifiers,
          getT s'.sapling_nullifiers (encNullifier n) = some ())) ∧
      (∀ n, getT exStateN1.sprout_nullifiers (encNullifier n) = some () →
        getT s'.sprout_nullifiers (encNullifier n) = some ()) ∧
      (∀ n, getT exStateN1.sapling_nullifiers (encNullifier n) = some () →
        getT s'.sapling_nullifiers (encNullifier n) = some ()) :=
  spec_c1_amended exStateN1 exBlockN2 1 (by decide)

/-- C1 counterexample: `exBlockN1` commits sprout nullifier 7; committing
`exBlockN2`, whose transaction contains the same nullifier 7, succeeds (no
`DoubleSpend` error exists in this code path), the tip moves to the second
block, and its index entries are retained. -/
theorem spec_c1_counterexample :
    (7 ∈ exTxN.sproutNullifiers ∧ exTxN ∈ exBlockN1.transactions ∧
      exTxN ∈ exBlockN2.transactions) ∧
    getT exStateN1.sprout_nullifiers (encNullifier 7) = some () ∧
    commit_finalized_direct exStateN1 exBlockN2
      = some (blockHash exBlockN2, exStateN2) ∧
    tip exStateN2 = some (1, blockHash exBlockN2) ∧
    getT exStateN2.hash_by_height (encHeight 1) = some (blockHash exBlockN2) := by
  decide

/-- C10: if the block the drain loop selects for commit has no recoverable
height (`coinbase_height()` is `None`), `queue_and_commit_finalized_blocks`
panics (`expect("valid blocks must have a height")`), modelled as `none`,
rather than returning an error. -/
theorem spec_c10 (s : FinalizedState) (qb qb' : QueuedBlock)
    (hsel : alLookup
      (alInsert s.queued_by_prev_hash qb.block.header.previous_block_hash qb)
      (finalized_tip_hash s) = some qb')
    (hnone : Block.coinbase_height qb'.block = none) :
    queue_and_commit_finalized_blocks s qb = none := by
  rw [queue_and_commit_finalized_blocks]
  rcases hq : alInsert s.queued_by_prev_hash qb.block.header.previous_block_hash qb
    with _ | ⟨e, tl⟩
  · rw [hq] at hsel
    simp [alLookup] at hsel
  · rw [hq] at hsel
    rw [List.length_cons]
    simp only [drainGo, finalized_tip_hash_queue_irrel, hsel, hnone]

/-- C10 witness: enqueueing a heightless block onto an empty state, where it
is immediately selected, panics. -/
theorem spec_c10_witness :
    queue_and_commit_finalized_blocks emptyState ⟨exBlockNoH, 0⟩ = none :=
  spec_c10 emptyState ⟨exBlockNoH, 0⟩ ⟨exBlockNoH, 0⟩ (by decide) (by decide)

/-- C9 (amended): `respond(o, utxo)` removes the waiter entry for `o` if one
exists — regardless of whether any subscriber is still listening — sends the
utxo to that entry's channel (a failed send is silently ignored), and leaves
every other entry unchanged; when no entry for `o` exists the call is a
complete no-op.  The operation is total: it never returns an error. -/
theorem spec_c9_amended (m : PendingUtxos) (o : OutPoint) (u : Output) :
    (∀ snd, puLookup m o = some snd →
      (respond m o u).2 = some (snd, u) ∧
      puLookup (respond m o u).1 o = none ∧
      ∀ o', o' ≠ o → puLookup (respond m o u).1 o' = puLookup m o') ∧
    (puLookup m o = none → respond m o u = (m, none)) := by
  constructor
  · intro snd hsnd
    have hr : respond m o u = (puRemove m o, some (snd, u)) := by
      simp only [respond, hsnd]
    rw [hr]
    exact ⟨rfl, puLookup_remove_self m o, fun o' h => puLookup_remove_ne m h⟩
  · intro hnone
    simp only [respond, hnone]

/-- C9 witness: the amended claim evaluated on a one-entry waiter map. -/
theorem spec_c9_witness :
    (respond exPU1 exOutPoint0 exOut2).2 = some (⟨3, 1⟩, exOut2) ∧
    puLookup (respond exPU1 exOutPoint0 exOut2).1 exOutPoint0 = none ∧
    respond [] exOutPoint0 exOut2 = ([], none) :=
  ⟨((spec_c9_amended exPU1 exOutPoint0 exOut2).1 ⟨3, 1⟩ (by decide)).1,
   ((spec_c9_amended exPU1 exOutPoint0 exOut2).1 ⟨3, 1⟩ (by decide)).2.1,
   (spec_c9_amended [] exOutPoint0 exOut2).2 (by decide)⟩

/-- C9 counterexample: an entry whose subscribers have all gone away
(receiver count 0) is still removed by `respond` — the map does change, so
"the call is a silent no-op and the map is entirely unchanged" fails for
that case. -/
theorem spec_c9_counterexample :
    puLookup exPU0 exOutPoint0 = some ⟨0, 0⟩ ∧
    (respond exPU0 exOutPoint0 exOut2).1 = [] ∧ exPU0 ≠ [] := by
  decide

/-- C4 (amended): the drain loop commits a selected block under the block's
own coinbase height — the height-indexed trees record it at
`coinbase_height()`, not at a height derived from the tip; the two agree
only when the block declares `tip height + 1` (or 0 on an empty store). -/
theorem spec_c4_amended (s : FinalizedState) (qb : QueuedBlock) (ch : Nat)
    (hq : s.queued_by_prev_hash = [])
    (hp : qb.block.header.previous_block_hash = finalized_tip_hash s)
    (hc : Block.coinbase_height qb.block = some ch) :
    ∃ s', queue_and_commit_finalized_blocks s qb = some (s', [blockHash qb.block]) ∧
      getT s'.hash_by_height (encHeight ch) = some (blockHash qb.block) ∧
      getT s'.block_by_height (encHeight ch) = some qb.block := by
  have hqins : alInsert s.queued_by_prev_hash qb.block.header.previous_block_hash qb
      = [(finalized_tip_hash s, qb)] := by
    rw [hq, hp]
    rfl
  rw [queue_and_commit_finalized_blocks, hqins]
  set s0 : FinalizedState :=
    { s with queued_by_prev_hash := [(finalized_tip_hash s, qb)] } with hs0
  have hlook0 : alLookup s0.queued_by_prev_hash (finalized_tip_hash s0) = some qb := by
    rw [show finalized_tip_hash s0 = finalized_tip_hash s from rfl, hs0]
    simp [alLookup]
  have hrem0 : alRemove s0.queued_by_prev_hash (finalized_tip_hash s0) = [] := by
    rw [show finalized_tip_hash s0 = finalized_tip_hash s from rfl, hs0]
    simp [alRemove]
  obtain ⟨s1, hcommit, hq1, hhh1, _, hblk1⟩ :=
    commit_spec (s := { s0 with queued_by_prev_hash := [] }) (b := qb.block) hc
  have hq1nil : s1.queued_by_prev_hash = [] := hq1
  have hlook1 : alLookup s1.queued_by_prev_hash (finalized_tip_hash s1) = none := by
    rw [hq1nil]
    rfl
  refine ⟨s1, ?_, ?_, ?_⟩
  · show drainGo 1 s0 = some (s1, [blockHash qb.block])
    rw [show (1 : Nat) = 0 + 1 from rfl]
    simp only [drainGo, hlook0, hrem0, hc, hcommit, hlook1, Option.map_some']
  · rw [hhh1]
    exact getT_insertT_self _ _ _
  · rw [hblk1]
    exact getT_insertT_self _ _ _

/-- C4 witness: the amended claim on a fresh database and a genesis-shaped
block. -/
theorem spec_c4_witness :
    ∃ s', queue_and_commit_finalized_blocks emptyState ⟨exBlockG, 0⟩
        = some (s', [blockHash exBlockG]) ∧
      getT s'.hash_by_height (encHeight 0) = some (blockHash exBlockG) ∧
      getT s'.block_by_height (encHeight 0) = some exBlockG :=
  spec_c4_amended emptyState ⟨exBlockG, 0⟩ 0 rfl rfl (by decide)

/-- C4 counterexample: on an empty store, draining a queued block whose
coinbase height is 5 commits it under height 5, not under height 0 as the
claim requires — `hash_by_height[0]` stays empty and the entry lands at 5. -/
theorem spec_c4_counterexample :
    queue_and_commit_finalized_blocks emptyState ⟨exBlock5, 0⟩
      = some (exQState5, [blockHash exBlock5]) ∧
    getT exQState5.hash_by_height (encHeight 0) = none ∧
    getT exQState5.hash_by_height (encHeight 5) = some (blockHash exBlock5) ∧
    tip exQState5 = some (5, blockHash exBlock5) := by
  decide

theorem tip_none_iff (s : FinalizedState) : tip s = none ↔ s.hash_by_height = [] := by
  constructor
  · intro h
    rcases hl : lastT s.hash_by_height with _ | e
    · rw [lastT] at hl
      exact List.getLast?_eq_none_iff.mp hl
    · rw [tip, hl] at h
      obtain ⟨kb, x⟩ := e
      simp at h
  · intro h
    rw [tip, lastT, h]
    rfl

/-- Every committed height lies strictly below the next height the spec's
precondition would assign. -/
theorem nextHeight_above {s : FinalizedState} (hsrt : TSorted s.hash_by_height)
    (hk : WellKeyed s.hash_by_height) :
    ∀ h' x', h' < 2 ^ 32 → getT s.hash_by_height (encHeight h') = some x' →
      h' < nextHeight s := by
  intro h' x' hlt hget
  rcases htip : tip s with _ | ⟨t, y⟩
  · rw [tip_none_iff] at htip
    rw [htip] at hget
    simp [getT] at hget
  · have := tip_is_max hsrt hk htip h' x' hlt hget
    rw [nextHeight, finalized_tip_height, htip]
    simp only [Option.map_some']
    omega

/-- C3 (amended): with the two blocks declaring the chain's next two
coinbase heights (tip+1 and tip+2 — which the code does not derive itself),
an empty queue, and `hash(B1)` distinct from the tip hash, enqueueing the
child `B2` first buffers it and leaves the trees unchanged, and then
enqueueing `B1` commits `B1` and `B2`, in that order, in the single drain
pass of the second enqueue. -/
theorem spec_c3_amended (s : FinalizedState) (B1 B2 : Block) (i1 i2 ht1 ht2 : Nat)
    (hq : s.queued_by_prev_hash = [])
    (hsrt : TSorted s.hash_by_height) (hk : WellKeyed s.hash_by_height)
    (hp1 : B1.header.previous_block_hash = finalized_tip_hash s)
    (hp2 : B2.header.previous_block_hash = blockHash B1)
    (hc1 : Block.coinbase_height B1 = some ht1)
    (hc2 : Block.coinbase_height B2 = some ht2)
    (hh1 : ht1 = nextHeight s) (hh2 : ht2 = ht1 + 1) (hb2 : ht2 < 2 ^ 32)
    (hne : blockHash B1 ≠ finalized_tip_hash s) :
    queue_and_commit_finalized_blocks s ⟨B2, i2⟩ =
      some ({ s with queued_by_prev_hash := [(blockHash B1, ⟨B2, i2⟩)] }, []) ∧
    ∃ s2, queue_and_commit_finalized_blocks
        { s with queued_by_prev_hash := [(blockHash B1, ⟨B2, i2⟩)] } ⟨B1, i1⟩ =
      some (s2, [blockHash B1, blockHash B2]) ∧
      getT s2.block_by_height (encHeight ht1) = some B1 ∧
      getT s2.block_by_height (encHeight ht2) = some B2 ∧
      tip s2 = some (ht2, blockHash B2) ∧ s2.queued_by_prev_hash = [] := by
  have h1 : alInsert s.queued_by_prev_hash
      (⟨B2, i2⟩ : QueuedBlock).block.header.previous_block_hash ⟨B2, i2⟩
      = [(blockHash B1, ⟨B2, i2⟩)] := by
    rw [hq]
    simp [alInsert, hp2]
  have hlook : alLookup [(blockHash B1, (⟨B2, i2⟩ : QueuedBlock))]
      (finalized_tip_hash s) = none := by
    simp [alLookup, Ne.symm hne]
  have e1 := @queue_enqueue_noop s ⟨B2, i2⟩ (by rw [h1]; exact hlook)
  rw [h1] at e1
  refine ⟨e1, ?_⟩
  obtain ⟨s2, he2, hq2, hb1g, hb2g, htip2⟩ :=
    @drain_run_two { s with queued_by_prev_hash := [(blockHash B1, ⟨B2, i2⟩)] }
      ⟨B1, i1⟩ ⟨B2, i2⟩ ht1 ht2 hsrt hk rfl hp1 hc1 hc2
      (by
        intro h' x' hlt hget
        rw [hh1]
        exact nextHeight_above hsrt hk h' x' hlt hget)
      (by omega) hb2 (by omega) hne
  exact ⟨s2, he2, hb1g, hb2g, htip2, hq2⟩

/-- C3 witness: the amended claim on a fresh database with a genesis-shaped
block and its child. -/
theorem spec_c3_witness :
    queue_and_commit_finalized_blocks emptyState ⟨exBlockC1, 12⟩ =
      some ({ emptyState with
              queued_by_prev_hash := [(blockHash exBlockG, ⟨exBlockC1, 12⟩)] },
            []) ∧
    ∃ s2, queue_and_commit_finalized_blocks
        { emptyState with
          queued_by_prev_hash := [(blockHash exBlockG, ⟨exBlockC1, 12⟩)] }
        ⟨exBlockG, 11⟩ =
      some (s2, [blockHash exBlockG, blockHash exBlockC1]) ∧
      getT s2.block_by_height (encHeight 0) = some exBlockG ∧
      getT s2.block_by_height (encHeight 1) = some exBlockC1 ∧
      tip s2 = some (1, blockHash exBlockC1) ∧ s2.queued_by_prev_hash = [] :=
  spec_c3_amended emptyState exBlockG exBlockC1 11 12 0 1 rfl tsorted_nil
    (by intro e he; simp [emptyState] at he) (by decide) (by decide) (by decide)
    (by decide) (by decide) (by decide) (by decide) (by decide)

/-- C3 counterexample: over a two-block chain, `exBlockLow` chains from the
tip and `exBlockLowChild` chains from `exBlockLow` — exactly the claim's
precondition — yet because `exBlockLow` declares coinbase height 0, the tip
does not advance to it, and the single drain pass commits only `exBlockLow`:
the child stays buffered, refuting "commits both B1 and B2, in that order,
within the single drain pass". -/
theorem spec_c3_counterexample :
    exBlockLowChild.header.previous_block_hash = blockHash exBlockLow ∧
    exBlockLow.header.previous_block_hash = finalized_tip_hash exStateGC ∧
    queue_and_commit_finalized_blocks exStateGC ⟨exBlockLowChild, 20⟩
      = some (exStateQ1, []) ∧
    (queue_and_commit_finalized_blocks exStateQ1 ⟨exBlockLow, 21⟩).map Prod.snd
      = some [blockHash exBlockLow] ∧
    (queue_and_commit_finalized_blocks exStateQ1 ⟨exBlockLow, 21⟩).map
        (fun p => p.1.queued_by_prev_hash)
      = some [(blockHash exBlockLow, ⟨exBlockLowChild, 20⟩)] := by
  decide

/-- C5: at most one queued block is retained per declared parent hash.
With the parent `P` not yet committed, enqueueing `B1` buffers it under
`hash(P)`; enqueueing `B2` (same declared parent) back-to-back silently
replaces `B1`, leaving exactly `B2` retained; when `P` arrives, the drain
pass commits `P` then `B2` — `B1` is never committed. -/
theorem spec_c5 (s : FinalizedState) (B1 B2 P : Block) (i1 i2 i3 htP htC : Nat)
    (hq : s.queued_by_prev_hash = [])
    (hsrt : TSorted s.hash_by_height) (hk : WellKeyed s.hash_by_height)
    (hprevP : P.header.previous_block_hash = finalized_tip_hash s)
    (hb1 : B1.header.previous_block_hash = blockHash P)
    (hb2 : B2.header.previous_block_hash = blockHash P)
    (hcP : Block.coinbase_height P = some htP)
    (hcB2 : Block.coinbase_height B2 = some htC)
    (hhP : htP = nextHeight s) (hhC : htC = htP + 1) (h32 : htC < 2 ^ 32)
    (hne : blockHash P ≠ finalized_tip_hash s) :
    queue_and_commit_finalized_blocks s ⟨B1, i1⟩ =
      some ({ s with queued_by_prev_hash := [(blockHash P, ⟨B1, i1⟩)] }, []) ∧
    queue_and_commit_finalized_blocks
        { s with queued_by_prev_hash := [(blockHash P, ⟨B1, i1⟩)] } ⟨B2, i2⟩ =
      some ({ s with queued_by_prev_hash := [(blockHash P, ⟨B2, i2⟩)] }, []) ∧
    ∃ s3, queue_and_commit_finalized_blocks
        { s with queued_by_prev_hash := [(blockHash P, ⟨B2, i2⟩)] } ⟨P, i3⟩ =
      some (s3, [blockHash P, blockHash B2]) ∧ s3.queued_by_prev_hash = [] := by
  have h1 : alInsert s.queued_by_prev_hash
      (⟨B1, i1⟩ : QueuedBlock).block.header.previous_block_hash ⟨B1, i1⟩
      = [(blockHash P, ⟨B1, i1⟩)] := by
    rw [hq]
    simp [alInsert, hb1]
  have hlookP : ∀ qb : QueuedBlock, alLookup [(blockHash P, qb)]
      (finalized_tip_hash s) = none := by
    intro qb
    simp [alLookup, Ne.symm hne]
  have e1 := @queue_enqueue_noop s ⟨B1, i1⟩ (by rw [h1]; exact hlookP _)
  rw [h1] at e1
  refine ⟨e1, ?_, ?_⟩
  · have h2 : alInsert [(blockHash P, (⟨B1, i1⟩ : QueuedBlock))]
        (⟨B2, i2⟩ : QueuedBlock).block.header.previous_block_hash ⟨B2, i2⟩
        = [(blockHash P, ⟨B2, i2⟩)] := by
      simp [alInsert, hb2]
    have e2 := @queue_enqueue_noop
      { s with queued_by_prev_hash := [(blockHash P, ⟨B1, i1⟩)] }
      ⟨B2, i2⟩ (by rw [h2]; exact hlookP _)
    rw [h2] at e2
    exact e2
  · obtain ⟨s3, he3, hq3, _, _, _⟩ :=
      @drain_run_two { s with queued_by_prev_hash := [(blockHash P, ⟨B2, i2⟩)] }
        ⟨P, i3⟩ ⟨B2, i2⟩ htP htC hsrt hk rfl hprevP hcP hcB2
        (by
          intro h' x' hlt hget
          rw [hhP]
          exact nextHeight_above hsrt hk h' x' hlt hget)
        (by omega) h32 (by omega) hne
    exact ⟨s3, he3, hq3⟩

/-- C5 witness: two distinct children of the same parent, enqueued before
it, on a fresh database. -/
theorem spec_c5_witness :
    queue_and_commit_finalized_blocks emptyState ⟨exBlockC1b, 31⟩ =
      some ({ emptyState with
              queued_by_prev_hash := [(blockHash exBlockG, ⟨exBlockC1b, 31⟩)] },
            []) ∧
    queue_and_commit_finalized_blocks
        { emptyState with
          queued_by_prev_hash := [(blockHash exBlockG, ⟨exBlockC1b, 31⟩)] }
        ⟨exBlockC1, 32⟩ =
      some ({ emptyState with
              queued_by_prev_hash := [(blockHash exBlockG, ⟨exBlockC1, 32⟩)] },
            []) ∧
    ∃ s3, queue_and_commit_finalized_blocks
        { emptyState with
          queued_by_prev_hash := [(blockHash exBlockG, ⟨exBlockC1, 32⟩)] }
        ⟨exBlockG, 33⟩ =
      some (s3, [blockHash exBlockG, blockHash exBlockC1]) ∧
      s3.queued_by_prev_hash = [] :=
  spec_c5 emptyState exBlockC1b exBlockC1 exBlockG 31 32 33 0 1 rfl tsorted_nil
    (by intro e he; simp [emptyState] at he) (by decide) (by decide) (by decide)
    (by decide) (by decide) (by decide) (by decide) (by decide) (by decide)

/-- C2 (amended): in every state reachable by successful commits that each
satisfy the documented commit precondition (previous-block-hash equal to the
current tip hash, coinbase height equal to tip height + 1, or the genesis
sentinel and height 0 on an empty store), `hash_by_height[h]` holds a hash
iff `height_by_hash` maps that hash back to `h`, and for `h > 0` the block
stored at `block_by_height[h]` has `previous_block_hash` equal to
`hash_by_height[h-1]`. -/
theorem spec_c2_amended (s : FinalizedState) (hr : ReachableWf s) (h x : Nat)
    (h32 : h < 2 ^ 32) :
    (getT s.hash_by_height (encHeight h) = some x ↔
      getT s.height_by_hash (encBHash x) = some h) ∧
    (getT s.hash_by_height (encHeight h) = some x → 0 < h →
      ∃ b xp, getT s.block_by_height (encHeight h) = some b ∧
        getT s.hash_by_height (encHeight (h - 1)) = some xp ∧
        b.header.previous_block_hash = xp) := by
  obtain ⟨N, hi⟩ := reachableWf_inv hr
  have hlt_of_get : ∀ x0, getT s.hash_by_height (encHeight h) = some x0 → h < N := by
    intro x0 hget
    obtain ⟨h0, h0lt, hkey⟩ := hi.keys _ (getT_mem hget)
    have hb32 : h0 < 2 ^ 32 := by
      have := hi.bound
      omega
    have : h = h0 := encHeight_inj h32 hb32 hkey
    omega
  constructor
  · constructor
    · intro hget
      exact (hi.link h x (hlt_of_get x hget) hget).1
    · intro hget
      obtain ⟨x0, h0, heq, h0lt, hx0⟩ := hi.rev _ (getT_mem hget)
      injection heq with hk1 hk2
      have hx : x = x0 := by
        simpa [encBHash] using hk1
      rw [hx, hk2]
      exact hx0
  · intro hget hpos
    have hlt := hlt_of_get x hget
    obtain ⟨_, b, hb, _, _, _, hsucc⟩ := hi.link h x hlt hget
    obtain ⟨xp, hxp, hprev⟩ := hsucc (h - 1) (by omega)
    exact ⟨b, xp, hb, hxp, hprev⟩

/-- C2 witness: the invariant evaluated after one well-formed commit. -/
theorem spec_c2_witness :
    (getT exStateG.hash_by_height (encHeight 0) = some (blockHash exBlockG) ↔
      getT exStateG.height_by_hash (encBHash (blockHash exBlockG)) = some 0) ∧
    (getT exStateG.hash_by_height (encHeight 0) = some (blockHash exBlockG) → 0 < 0 →
      ∃ b xp, getT exStateG.block_by_height (encHeight 0) = some b ∧
        getT exStateG.hash_by_height (encHeight (0 - 1)) = some xp ∧
        b.header.previous_block_hash = xp) :=
  spec_c2_amended exStateG
    (ReachableWf.step (b := exBlockG) (x := blockHash exBlockG) ReachableWf.init
      ⟨by decide, by decide, by decide⟩ (by decide))
    0 (blockHash exBlockG) (by decide)

/-- C2 counterexample: the claim as stated quantifies over every state
reachable by successful commits, but `commit_finalized_direct` accepts a
block whose coinbase height is 5 on an empty store: the resulting state has
a committed height 5 with `hash_by_height[4]` empty, so the parent-linkage
clause fails. -/
theorem spec_c2_counterexample :
    commit_finalized_direct emptyState exBlock5 = some (blockHash exBlock5, exState5) ∧
    getT exState5.hash_by_height (encHeight 5) = some (blockHash exBlock5) ∧
    getT exState5.block_by_height (encHeight 5) = some exBlock5 ∧
    getT exState5.hash_by_height (encHeight 4) = none ∧
    ¬ ∃ xp, getT exState5.hash_by_height (encHeight 4) = some xp ∧
        exBlock5.header.previous_block_hash = xp := by
  refine ⟨by decide, by decide, by decide, by decide, ?_⟩
  rintro ⟨xp, hxp, _⟩
  rw [show getT exState5.hash_by_height (encHeight 4) = none from by decide] at hxp
  exact absurd hxp (by simp)

/-- C6: every output of a transaction in a successfully committed block is
retrievable through `utxo` at the (transaction hash, index) outpoint, and
stays retrievable after any further sequence of successful commits — the
engine never removes an unspent-output record when a later transaction
spends it. -/
theorem spec_c6 (s : FinalizedState) (b : Block) (x : Nat) (s' : FinalizedState)
    (t : Transaction) (i : Nat) (o : Output)
    (hc : commit_finalized_direct s b = some (x, s'))
    (ht : t ∈ b.transactions) (ho : t.outputs[i]? = some o) :
    utxo s' ⟨txHash t, i⟩ = some o ∧
    ∀ bs s'', commitList s' bs = some s'' → utxo s'' ⟨txHash t, i⟩ = some o := by
  have h1 : getT s'.utxo_by_outpoint (encOutPointKey (txHash t) i) = some o :=
    utxo_entry_created ht ho hc
  refine ⟨h1, fun bs s'' hcl => ?_⟩
  show getT s''.utxo_by_outpoint (encOutPointKey (txHash t) i) = some o
  clear hc ht
  induction bs generalizing s' with
  | nil =>
    rw [commitList] at hcl
    injection hcl with hcl
    rw [← hcl]
    exact h1
  | cons b0 bs ih =>
    rw [commitList] at hcl
    rcases hcb : commit_finalized_direct s' b0 with _ | p
    · rw [hcb] at hcl
      exact absurd hcl (by simp)
    · rw [hcb] at hcl
      obtain ⟨x0, s0⟩ := p
      exact ih s0 (utxo_entry_commit ho h1 hcb) hcl

/-- C6 witness: a committed output is retrievable and survives a further
commit. -/
theorem spec_c6_witness :
    utxo exStateU ⟨txHash exTxOut, 0⟩ = some exOut ∧
    utxo exStateU2 ⟨txHash exTxOut, 0⟩ = some exOut :=
  ⟨(spec_c6 emptyState exBlockU (blockHash exBlockU) exStateU exTxOut 0 exOut
      (by decide) (by decide) (by decide)).1,
   (spec_c6 emptyState exBlockU (blockHash exBlockU) exStateU exTxOut 0 exOut
      (by decide) (by decide) (by decide)).2 [exBlockU2] exStateU2 (by decide)⟩

/-- C7 (amended): `tip()` is `none` iff nothing is committed; otherwise it
returns the entry of maximal height — the last entry of `hash_by_height` in
ascending byte order, because fixed-width big-endian height keys sort
numerically.  The tip equals the most recently committed block only when
that commit's height exceeds every committed height (as the documented
precondition guarantees), not after a lower-height commit. -/
theorem spec_c7 (s : FinalizedState) (hsrt : TSorted s.hash_by_height)
    (hk : WellKeyed s.hash_by_height) :
    (tip s = none ↔ s.hash_by_height = []) ∧
    (∀ t x, tip s = some (t, x) →
      getT s.hash_by_height (encHeight t) = some x ∧
      ∀ h' x', h' < 2 ^ 32 → getT s.hash_by_height (encHeight h') = some x' → h' ≤ t) ∧
    (∀ b ch x s', Block.coinbase_height b = some ch → ch < 2 ^ 32 →
      (∀ h' x', h' < 2 ^ 32 → getT s.hash_by_height (encHeight h') = some x' → h' < ch) →
      commit_finalized_direct s b = some (x, s') → tip s' = some (ch, x)) := by
  refine ⟨tip_none_iff s, ?_, ?_⟩
  · intro t x htip
    constructor
    · rcases hl : lastT s.hash_by_height with _ | e
      · rw [tip, hl] at htip
        exact absurd htip (by simp)
      · obtain ⟨kb, xv⟩ := e
        rw [tip, hl] at htip
        simp only [Option.some.injEq, Prod.mk.injEq] at htip
        obtain ⟨hdec, hxv⟩ := htip
        obtain ⟨h0, h0lt, hkb0⟩ := hk _ (lastT_mem hl)
        have hkb : kb = encHeight h0 := hkb0
        subst hkb
        rw [decodeHeight_encHeight h0lt] at hdec
        have hmem := mem_getT hsrt (lastT_mem hl)
        rw [hdec, hxv] at hmem
        exact hmem
    · exact tip_is_max hsrt hk htip
  · intro b ch x s' hcb hch habove hcommit
    obtain ⟨s'', hc2, htip2, _, _, _, _, _⟩ := tip_after_commit hsrt hk hcb hch habove
    rw [hcommit] at hc2
    injection hc2 with hc2
    injection hc2 with hx hs
    subst hs
    rw [← hx] at htip2
    exact htip2

/-- C7 witness: the tip characterization evaluated on the one-block state. -/
theorem spec_c7_witness :
    (tip exStateG = none ↔ exStateG.hash_by_height = []) ∧
    (∀ t x, tip exStateG = some (t, x) →
      getT exStateG.hash_by_height (encHeight t) = some x ∧
      ∀ h' x', h' < 2 ^ 32 → getT exStateG.hash_by_height (encHeight h') = some x' →
        h' ≤ t) ∧
    (∀ b ch x s', Block.coinbase_height b = some ch → ch < 2 ^ 32 →
      (∀ h' x', h' < 2 ^ 32 → getT exStateG.hash_by_height (encHeight h') = some x' →
        h' < ch) →
      commit_finalized_direct exStateG b = some (x, s') → tip s' = some (ch, x)) :=
  spec_c7 exStateG
    (by
      rw [TSorted, show exStateG.hash_by_height
        = [(encHeight 0, blockHash exBlockG)] from by decide]
      simp)
    (by
      intro e he
      rw [show exStateG.hash_by_height
        = [(encHeight 0, blockHash exBlockG)] from by decide] at he
      simp only [List.mem_singleton] at he
      exact ⟨0, by decide, by rw [he]⟩)

/-- C7 counterexample: over the two-block chain `exStateGC` (tip at height
1), committing `exBlockLow` — which declares coinbase height 0 — succeeds,
so `exBlockLow` is the most recently committed block; yet the tip remains
`(1, hash exBlockC1)`, a different block.  "tip() … equals the most recently
committed block" is therefore false as an unconditional statement about
committed states. -/
theorem spec_c7_counterexample :
    commit_finalized_direct exStateGC exBlockLow
      = some (blockHash exBlockLow, exStateLow) ∧
    getT exStateLow.hash_by_height (encHeight 0) = some (blockHash exBlockLow) ∧
    tip exStateLow = some (1, blockHash exBlockC1) ∧
    blockHash exBlockC1 ≠ blockHash exBlockLow := by
  decide

/-- C8: `depth(hash)` is `None` exactly when the hash is not committed, and
otherwise equals tip height minus the block's height; in every reachable
state each committed height is at most the tip height, so the `u32`
subtraction never underflows. -/
theorem spec_c8 (s : FinalizedState) (hr : ReachableAny s) (x : Nat) :
    (getT s.height_by_hash (encBHash x) = none → depth s x = some none) ∧
    (∀ h, getT s.height_by_hash (encBHash x) = some h →
      ∃ t y, tip s = some (t, y) ∧ h ≤ t ∧ depth s x = some (some (t - h))) := by
  obtain ⟨hsrt, hk, hcov, _⟩ := reachableAny_inv hr
  constructor
  · intro hnone
    rw [depth, hnone]
  · intro h hget
    obtain ⟨h32, y0, hy0⟩ := hcov x h hget
    have hne : s.hash_by_height ≠ [] := by
      intro hc
      rw [hc] at hy0
      simp [getT] at hy0
    obtain ⟨e, hl⟩ : ∃ e, lastT s.hash_by_height = some e :=
      ⟨_, by rw [lastT, List.getLast?_eq_getLast_of_ne_nil hne]⟩
    obtain ⟨kb, yv⟩ := e
    obtain ⟨t0, t0lt, hkb0⟩ := hk _ (lastT_mem hl)
    have hkb : kb = encHeight t0 := hkb0
    subst hkb
    have htip : tip s = some (t0, yv) := by
      rw [tip, hl]
      show some (decodeHeight (encHeight t0), yv) = some (t0, yv)
      rw [decodeHeight_encHeight t0lt]
    have hle : h ≤ t0 := tip_is_max hsrt hk htip h y0 h32 hy0
    refine ⟨t0, yv, htip, hle, ?_⟩
    simp only [depth, hget, htip]
    have harith : (t0 + 2 ^ 32 - h) % 2 ^ 32 = t0 - h := by omega
    rw [harith]

/-- C8 witness: the depth characterization evaluated on the one-block state
at its own block hash and at an uncommitted hash. -/
theorem spec_c8_witness :
    (getT exStateG.height_by_hash (encBHash (blockHash exBlockG)) = none →
      depth exStateG (blockHash exBlockG) = some none) ∧
    (∀ h, getT exStateG.height_by_hash (encBHash (blockHash exBlockG)) = some h →
      ∃ t y, tip exStateG = some (t, y) ∧ h ≤ t ∧
        depth exStateG (blockHash exBlockG) = some (some (t - h))) :=
  spec_c8 exStateG
    (@ReachableAny.step emptyState exBlockG 0 (blockHash exBlockG) exStateG
      ReachableAny.init (by decide) (by decide) (by decide))
    (blockHash exBlockG)
